import Mathlib

/-!
# Verification of the livescore score engine and incremental sync cache

A shallow embedding of the score-computation and GraphQL sync-cache code of
the livescore repository.  TypeScript `number` is modelled by `ℚ` (exact
arithmetic), optional fields by `Option`, and JavaScript truthiness of
numbers/strings is made explicit where the source relies on it.
JavaScript `Map`s (which preserve insertion order; `set` on an existing key
updates the value in place) are modelled by association lists together with
`setAssoc`/`getAssoc`.
-/

namespace Livescore

/-- Hit counts per score zone (src types.ts, `Hits`). -/
structure Hits where
  A : ℚ
  C : ℚ
  D : ℚ
  M : ℚ
  NS : ℚ
  deriving DecidableEq, Repr

/-- A competitor's row on one stage (src types.ts, `Competitor`).
`powerFactor` is the string `"Major"` or `"Minor"` in the source. -/
structure Competitor where
  name : String
  division : String
  powerFactor : String
  category : Option String
  hitFactor : ℚ
  time : ℚ
  points : ℚ
  hits : Hits
  stageScoreField : Option ℚ
  competitorKey : String
  deriving DecidableEq, Repr

/-- One stage of a match (src types.ts, `Stage`). -/
structure Stage where
  stage : ℚ
  stageName : Option String
  competitors : List Competitor
  maxPossibleScore : Option ℚ
  procedures : ℚ
  deriving DecidableEq, Repr

/-- Derived per-stage score record (src types.ts, `StageScore`). -/
structure StageScore where
  stage : ℚ
  stageName : String
  score : ℚ
  hits : Hits
  points : ℚ
  time : ℚ
  procedures : ℚ
  maxPossibleScore : ℚ
  hitFactor : ℚ
  deriving DecidableEq, Repr

/-- Aggregate per-competitor result (src types.ts, `CompetitorWithTotalScore`). -/
structure CompetitorWithTotalScore where
  name : String
  division : String
  totalScore : ℚ
  stageScores : List StageScore
  competitorKey : String
  deriving DecidableEq, Repr

/-- The `{name, division, key}` objects pushed into the roster set in
`calculateScoresForStages`. -/
structure CompetitorKeyEntry where
  name : String
  division : String
  key : String
  deriving DecidableEq, Repr

/-- JavaScript `x || d` for a number `x`: `0` is falsy. -/
def jsNumOr (q d : ℚ) : ℚ := if q = 0 then d else q

/-- JavaScript `x || d` for an optional number `x`: `undefined` and `0` are falsy. -/
def jsOptNumOr (o : Option ℚ) (d : ℚ) : ℚ :=
  match o with
  | some v => if v = 0 then d else v
  | none => d

/-- JavaScript `s || d` for an optional string `s`: `undefined` and `""` are falsy. -/
def jsStringOr (o : Option String) (d : String) : String :=
  match o with
  | some s => if s = "" then d else s
  | none => d

/-- `calculateMaxPossibleScores` (scoreCalculations module).  An empty stage gets
`undefined`; a truthy (present and nonzero) existing value is kept; otherwise the
max score is `(A + C + D + M) * 5` taken from the first competitor. -/
def calculateMaxPossibleScores (stages : List Stage) : List Stage :=
  stages.map fun stage =>
    if stage.competitors = [] then
      { stage with maxPossibleScore := none }
    else if (jsOptNumOr stage.maxPossibleScore 0) ≠ 0 then
      stage
    else
      match stage.competitors with
      | [] => { stage with maxPossibleScore := none }
      | competitor :: _ =>
          { stage with
            maxPossibleScore :=
              some ((competitor.hits.A + competitor.hits.C + competitor.hits.D +
                competitor.hits.M) * 5) }

/-- `calculateHitsScore` (scoreCalculations module): IPSC per-hit values,
Major `{A:5, C:4, D:2, M:-10, NS:-10}`, otherwise Minor `{A:5, C:3, D:1, M:-10, NS:-10}`. -/
def calculateHitsScore (hits : Hits) (powerFactor : String) : ℚ :=
  if powerFactor = "Major" then
    hits.A * 5 + hits.C * 4 + hits.D * 2 + hits.M * (-10) + hits.NS * (-10)
  else
    hits.A * 5 + hits.C * 3 + hits.D * 1 + hits.M * (-10) + hits.NS * (-10)

/-- `calculateStageScore` (scoreCalculations module).  The guard is the source's
`!maxHitFactor || maxHitFactor <= 0`. -/
def calculateStageScore (competitor : Competitor) (maxHitFactor : ℚ)
    (maxPossibleScore : ℚ) (stageNumber : ℚ) (stageName : Option String) : StageScore :=
  if maxHitFactor = 0 ∨ maxHitFactor ≤ 0 then
    { stage := stageNumber
      stageName := jsStringOr stageName ("Stage " ++ toString stageNumber)
      score := 0
      hits := competitor.hits
      points := jsNumOr competitor.points 0
      time := jsNumOr competitor.time 0
      procedures := 0
      maxPossibleScore := maxPossibleScore
      hitFactor := jsNumOr competitor.hitFactor 0 }
  else
    let stageScore := (competitor.hitFactor / maxHitFactor) * maxPossibleScore
    let hitsScore := calculateHitsScore competitor.hits competitor.powerFactor
    let procedures := max 0 ((hitsScore - jsNumOr competitor.points 0) / 10)
    { stage := stageNumber
      stageName := jsStringOr stageName ("Stage " ++ toString stageNumber)
      score := stageScore
      hits := competitor.hits
      points := jsNumOr competitor.points 0
      time := jsNumOr competitor.time 0
      procedures := procedures
      maxPossibleScore := maxPossibleScore
      hitFactor := jsNumOr competitor.hitFactor 0 }

/-- Truthiness of the optional `category` argument (`category ? … : …`). -/
def jsCategoryActive (category : Option String) : Bool :=
  match category with
  | some c => c ≠ ""
  | none => false

/-- The category filter `category ? competitors.filter(c => c.category === category) : competitors`
used twice inside `calculateScoresForStages`. -/
def filteredCompetitors (competitors : List Competitor) (category : Option String) :
    List Competitor :=
  if jsCategoryActive category then
    competitors.filter fun c => c.category = category
  else competitors

/-- The roster entries accumulated into `competitorSet` (a JS `Set` of fresh
objects, hence simply a list in insertion order, duplicates included). -/
def competitorEntriesOf (stages : List Stage) (category : Option String) :
    List CompetitorKeyEntry :=
  (stages.map fun stage =>
    (filteredCompetitors stage.competitors category).map fun c =>
      { name := c.name, division := c.division, key := c.competitorKey }).flatten

/-- JS `Map.set`: update the value in place if the key is present, append otherwise. -/
def setAssoc {α : Type} (m : List (String × α)) (k : String) (v : α) :
    List (String × α) :=
  if m.any fun p => p.1 = k then
    m.map fun p => if p.1 = k then (k, v) else p
  else m ++ [(k, v)]

/-- JS `Map.get`: the value stored at a key, if any. -/
def getAssoc {α : Type} (m : List (String × α)) (k : String) : Option α :=
  (m.find? fun p => p.1 = k).map Prod.snd

/-- The `competitorMap` after its initialisation loop. -/
def initialCompetitorMap (entries : List CompetitorKeyEntry) :
    List (String × CompetitorWithTotalScore) :=
  entries.foldl
    (fun m e =>
      setAssoc m e.key
        { name := e.name, division := e.division, totalScore := 0,
          stageScores := [], competitorKey := e.key })
    []

/-- `competitorsToInclude.some(c => c.key === competitor.competitorKey)`. -/
def includedCompetitor (entries : List CompetitorKeyEntry) (c : Competitor) : Bool :=
  entries.any fun e => e.key = c.competitorKey

/-- The `validHitFactors` list of a stage: hit factors of the category-filtered
pool that pass `hf && hf > 0`. -/
def validHitFactorsOf (stage : Stage) (category : Option String) : List ℚ :=
  ((filteredCompetitors stage.competitors category).map Competitor.hitFactor).filter
    fun hf => decide (hf ≠ 0) && decide (0 < hf)

/-- `Math.max(...validHitFactors)` guarded by `validHitFactors.length > 0 ? … : 0`. -/
def maxHitFactorForStage (stage : Stage) (category : Option String) : ℚ :=
  match validHitFactorsOf stage category with
  | [] => 0
  | h :: t => t.foldl max h

/-- The per-stage body of the `stages.forEach` loop in `calculateScoresForStages`:
score every roster competitor of the stage and accumulate into the competitor map. -/
def processStage (entries : List CompetitorKeyEntry) (category : Option String)
    (m : List (String × CompetitorWithTotalScore)) (stage : Stage) :
    List (String × CompetitorWithTotalScore) :=
  let maxPossibleScore := jsOptNumOr stage.maxPossibleScore 0
  let maxHitFactor := maxHitFactorForStage stage category
  (stage.competitors.filter fun c => includedCompetitor entries c).foldl
    (fun m competitor =>
      match getAssoc m competitor.competitorKey with
      | none => m
      | some competitorData =>
          let stageScore :=
            calculateStageScore competitor maxHitFactor maxPossibleScore
              stage.stage stage.stageName
          setAssoc m competitor.competitorKey
            { competitorData with
              stageScores := competitorData.stageScores ++ [stageScore],
              totalScore := competitorData.totalScore + stageScore.score })
    m

/-- `calculateScoresForStages` (scoreCalculations module).  The final
`sort((a, b) => b.totalScore - a.totalScore)` is a stable descending sort. -/
def calculateScoresForStages (stages : List Stage) (category : Option String) :
    List CompetitorWithTotalScore :=
  let entries := competitorEntriesOf stages category
  let m := stages.foldl (processStage entries category) (initialCompetitorMap entries)
  (m.map Prod.snd).mergeSort fun a b => b.totalScore ≤ a.totalScore

/-- The `commonStages` filter at the head of `compareCompetitors`: stages on which
every requested key has a scorecard. -/
def commonStagesOf (stages : List Stage) (competitorKeys : List String) : List Stage :=
  stages.filter fun stage =>
    competitorKeys.all fun key =>
      stage.competitors.any fun c => c.competitorKey = key

/-- `compareCompetitors` (scoreCalculations module). -/
def compareCompetitors (stages : List Stage) (competitorKeys : List String)
    (category : Option String) : List CompetitorWithTotalScore :=
  calculateScoresForStages (commonStagesOf stages competitorKeys) category

/-- `calculateCompetitorScores` (scoreCalculations module). -/
def calculateCompetitorScores (stages : List Stage) (category : Option String) :
    List CompetitorWithTotalScore :=
  calculateScoresForStages stages category

/-- GraphQL competitor node (graphql module, `GraphQLCompetitor`). -/
structure GraphQLCompetitor where
  id : String
  first_name : String
  last_name : String
  number : String
  handgun_div : Option String
  handgun_pf : Option String
  get_handgun_div_display : Option String
  get_handgun_pf_display : Option String
  category : Option String
  deriving DecidableEq, Repr

/-- GraphQL scorecard node (graphql module, `GraphQLScorecard`). -/
structure GraphQLScorecard where
  id : String
  time : ℚ
  points : ℚ
  hitfactor : ℚ
  ascore : ℚ
  bscore : ℚ
  cscore : ℚ
  dscore : ℚ
  hscore : ℚ
  updated : Option String
  competitor : GraphQLCompetitor
  deriving DecidableEq, Repr

/-- GraphQL stage node (graphql module, `GraphQLStage`). -/
structure GraphQLStage where
  id : String
  number : ℚ
  name : String
  scorecards : List GraphQLScorecard
  deriving DecidableEq, Repr

/-- GraphQL event node (graphql module, `GraphQLEvent`). -/
structure GraphQLEvent where
  id : String
  name : String
  uses_stages : Bool
  stages : List GraphQLStage
  deriving DecidableEq, Repr

/-- `determinePowerFactor` (graphql module): prefer the display string,
fall back to the `"+"` code, default `"Minor"`. -/
def determinePowerFactor (handgunPf handgunPfDisplay : Option String) : String :=
  let fallback := if handgunPf = some "+" then "Major" else "Minor"
  match handgunPfDisplay with
  | some d =>
      if d = "" then fallback
      else if d.toLower = "major" then "Major"
      else if d.toLower = "minor" then "Minor"
      else fallback
  | none => fallback

/-- `DIVISION_DISPLAY_MAP` (graphql module). -/
def DIVISION_DISPLAY_MAP (code : String) : Option String :=
  if code = "hg1" then some "Open"
  else if code = "hg2" then some "Standard"
  else if code = "hg3" then some "Production"
  else if code = "hg5" then some "Revolver"
  else if code = "hg12" then some "Classic"
  else if code = "hg18" then some "Production Optics"
  else none

/-- `transformScorecard` (graphql module): map a GraphQL scorecard to a
`Competitor`, with `hscore → M` and `bscore → NS`. -/
def transformScorecard (scorecard : GraphQLScorecard) : Competitor :=
  let competitor := scorecard.competitor
  let fullName := (competitor.first_name ++ " " ++ competitor.last_name).trim
  let divisionCode := jsStringOr competitor.handgun_div ""
  let displayDivision :=
    jsStringOr competitor.get_handgun_div_display
      (jsStringOr (DIVISION_DISPLAY_MAP divisionCode)
        (if divisionCode = "" then "Unknown" else divisionCode))
  let powerFactor :=
    determinePowerFactor competitor.handgun_pf competitor.get_handgun_pf_display
  { name := fullName
    division := displayDivision
    powerFactor := powerFactor
    category := competitor.category
    hitFactor := jsNumOr scorecard.hitfactor 0
    time := jsNumOr scorecard.time 0
    points := jsNumOr scorecard.points 0
    hits :=
      { A := jsNumOr scorecard.ascore 0
        C := jsNumOr scorecard.cscore 0
        D := jsNumOr scorecard.dscore 0
        M := jsNumOr scorecard.hscore 0
        NS := jsNumOr scorecard.bscore 0 }
    stageScoreField := none
    competitorKey :=
      if competitor.number = "" then fullName ++ "|" ++ displayDivision
      else competitor.number }

/-- `transformStages` (graphql module): optional division filter at the scorecard
level, then per-stage transformation. -/
def transformStages (stages : List GraphQLStage) (divisionFilter : Option String) :
    List Stage :=
  let shouldFilter : Bool :=
    match divisionFilter with
    | some d => decide (d ≠ "") && decide (d ≠ "all")
    | none => false
  stages.map fun stage =>
    let scorecards :=
      if shouldFilter then
        stage.scorecards.filter fun sc => sc.competitor.handgun_div = divisionFilter
      else stage.scorecards
    let competitors := scorecards.map transformScorecard
    let stageName :=
      if stage.name ≠ "" ∧ stage.name.trim ≠ "" then stage.name
      else "Stage " ++ toString stage.number
    { stage := stage.number
      stageName := some stageName
      competitors := competitors
      maxPossibleScore := none
      procedures := 0 }

/-- A sync-cache entry (graphql module, `GraphQLCacheEntry`). -/
structure GraphQLCacheEntry where
  event : GraphQLEvent
  lastUpdated : String
  fetchedAt : Int
  lastAccessedAt : Int
  deriving DecidableEq, Repr

/-- The floor value the latest-update scan starts from. -/
def epochFloor : String := "1970-01-01T00:00:00Z"

/-- `findLatestUpdateTimestamp` (graphql module): the latest truthy `updated`
string across all scorecards, starting from the 1970 floor.  The source guard is
`scorecard.updated && scorecard.updated > latest`. -/
def findLatestUpdateTimestamp (event : GraphQLEvent) : String :=
  event.stages.foldl
    (fun latest stage =>
      stage.scorecards.foldl
        (fun latest sc =>
          match sc.updated with
          | some u => if u ≠ "" ∧ latest.data < u.data then u else latest
          | none => latest)
        latest)
    epochFloor

/-- The `scorecardIndexMap` of `mergeUpdatedScorecards`: scorecard id to index,
built left to right so a later duplicate id wins. -/
def scorecardIndexMap (cards : List GraphQLScorecard) : List (String × Nat) :=
  cards.enum.foldl (fun m p => setAssoc m p.2.id p.1) []

/-- The inner scorecard merge loop of `mergeUpdatedScorecards` for one stage:
replace at the pre-computed index on id match, append otherwise. -/
def mergeScorecardsInto (cachedCards updatedCards : List GraphQLScorecard) :
    List GraphQLScorecard :=
  updatedCards.foldl
    (fun acc u =>
      match getAssoc (scorecardIndexMap cachedCards) u.id with
      | some i => acc.set i u
      | none => acc ++ [u])
    cachedCards

/-- One step of the stage loop of `mergeUpdatedScorecards`: a new stage is added
to the map, an existing one has the updated scorecards merged into it in place. -/
def mergeStageStep (m : List (String × GraphQLStage)) (updatedStage : GraphQLStage) :
    List (String × GraphQLStage) :=
  match getAssoc m updatedStage.id with
  | none => setAssoc m updatedStage.id updatedStage
  | some cachedStage =>
      setAssoc m updatedStage.id
        { cachedStage with
          scorecards := mergeScorecardsInto cachedStage.scorecards updatedStage.scorecards }

/-- The `stageMap` of `mergeUpdatedScorecards` before the update loop. -/
def buildStageMap (stages : List GraphQLStage) : List (String × GraphQLStage) :=
  stages.foldl (fun m s => setAssoc m s.id s) []

/-- `mergeUpdatedScorecards` (graphql module). -/
def mergeUpdatedScorecards (cachedEvent updatedEvent : GraphQLEvent) : GraphQLEvent :=
  let stageMap :=
    updatedEvent.stages.foldl mergeStageStep (buildStageMap cachedEvent.stages)
  { cachedEvent with stages := stageMap.map Prod.snd }

/-- `data.event.stages.some(s => s.scorecards.length > 0)`. -/
def hasUpdates (event : GraphQLEvent) : Bool :=
  event.stages.any fun s => s.scorecards.length > 0

/-- Outcome of one upstream GraphQL query: a thrown error, or a response whose
`event` field may be `null`. -/
inductive FetchOutcome where
  | success : Option GraphQLEvent → FetchOutcome
  | failure : FetchOutcome
  deriving DecidableEq, Repr

/-- Result of one modelled `fetchLiveScoresWithCache` call on a single cache key:
the cache entry for that key afterwards, and the returned stages or a thrown error. -/
structure FetchStepResult where
  newState : Option GraphQLCacheEntry
  result : Except String (List Stage)
  deriving Repr

/-- The full-fetch tail of `fetchLiveScoresWithCache` (first call, expired entry,
or fall-through after a failed incremental fetch). -/
def fullFetchStep (m : Option GraphQLCacheEntry) (now : Int)
    (fullOutcome : FetchOutcome) (division : Option String) : FetchStepResult :=
  match fullOutcome with
  | .failure => { newState := m, result := .error "GraphQL request failed" }
  | .success none => { newState := m, result := .error "Event not found" }
  | .success (some ev) =>
      { newState :=
          some { event := ev, lastUpdated := findLatestUpdateTimestamp ev,
                 fetchedAt := now, lastAccessedAt := now }
        result := .ok (transformStages ev.stages division) }

/-- `fetchLiveScoresWithCache` (graphql module), modelled for a single cache key.
The entry is read before the idle-eviction sweep; mutations of the entry object
reach the map only when the sweep did not evict it; on a failed or `null`
incremental response the code falls through to a full fetch. -/
def fetchLiveScoresWithCache (maxAgeMs evictionAgeMs : Int)
    (st : Option GraphQLCacheEntry) (now : Int)
    (incrementalOutcome fullOutcome : FetchOutcome) (division : Option String) :
    FetchStepResult :=
  let mapAfterEvict : Option GraphQLCacheEntry :=
    match st with
    | some e => if e.lastAccessedAt < now - evictionAgeMs then none else some e
    | none => none
  match st with
  | some cached =>
      if now - cached.fetchedAt < maxAgeMs then
        let accessed := { cached with lastAccessedAt := now }
        let mapAccessed :=
          match mapAfterEvict with
          | some _ => some accessed
          | none => none
        match incrementalOutcome with
        | .success (some ev) =>
            if hasUpdates ev then
              let mergedEvent := mergeUpdatedScorecards cached.event ev
              let newLastUpdated := findLatestUpdateTimestamp mergedEvent
              { newState :=
                  some { event := mergedEvent, lastUpdated := newLastUpdated,
                         fetchedAt := now, lastAccessedAt := now }
                result := .ok (transformStages mergedEvent.stages division) }
            else
              let kept := { accessed with fetchedAt := now }
              { newState :=
                  match mapAccessed with
                  | some _ => some kept
                  | none => none
                result := .ok (transformStages cached.event.stages division) }
        | .success none => fullFetchStep mapAccessed now fullOutcome division
        | .failure => fullFetchStep mapAccessed now fullOutcome division
      else fullFetchStep mapAfterEvict now fullOutcome division
  | none => fullFetchStep mapAfterEvict now fullOutcome division

/-! ## Basic lemmas about the JavaScript helpers -/

theorem jsNumOr_zero (q : ℚ) : jsNumOr q 0 = q := by
  unfold jsNumOr
  split <;> simp_all

theorem foldl_max_init_le (t : List ℚ) (h : ℚ) : h ≤ t.foldl max h := by
  induction t generalizing h with
  | nil => exact le_refl h
  | cons a t ih => exact le_trans (le_max_left h a) (ih (max h a))

theorem le_foldl_max (t : List ℚ) (h x : ℚ) (hx : x = h ∨ x ∈ t) :
    x ≤ t.foldl max h := by
  induction t generalizing h with
  | nil =>
      rcases hx with rfl | h'
      · exact le_refl x
      · cases h'
  | cons a t ih =>
      rcases hx with rfl | hx'
      · exact le_trans (le_max_left x a) (foldl_max_init_le t (max x a))
      · rcases List.mem_cons.mp hx' with rfl | hmem
        · exact le_trans (le_max_right h x) (foldl_max_init_le t (max h x))
        · exact ih (max h a) (Or.inr hmem)

theorem foldl_max_mem (t : List ℚ) (h : ℚ) : t.foldl max h = h ∨ t.foldl max h ∈ t := by
  induction t generalizing h with
  | nil => exact Or.inl rfl
  | cons a t ih =>
      rcases ih (max h a) with heq | hmem
      · rw [List.foldl_cons, heq]
        rcases max_choice h a with h' | h'
        · exact Or.inl h'
        · refine Or.inr ?_
          rw [h']
          exact List.mem_cons_self a t
      · exact Or.inr (List.mem_cons_of_mem a hmem)

/-! ## C7: penalty inference -/

/-- **C7.** On the scored branch (positive pool max hit factor), the inferred
penalty count is `max 0 ((hitScore − reportedPoints) / 10)`, where the weighted
hit score uses Major `{A:5,C:4,D:2,M:-10,NS:-10}` or Minor `{A:5,C:3,D:1,M:-10,NS:-10}`. -/
theorem procedures_eq_penalty_formula (c : Competitor) (maxHitFactor mps n : ℚ)
    (nm : Option String) (hpos : 0 < maxHitFactor) :
    (calculateStageScore c maxHitFactor mps n nm).procedures =
      max 0 ((calculateHitsScore c.hits c.powerFactor - c.points) / 10) ∧
    calculateHitsScore c.hits "Major" =
      c.hits.A * 5 + c.hits.C * 4 + c.hits.D * 2 + c.hits.M * (-10) + c.hits.NS * (-10) ∧
    (c.powerFactor ≠ "Major" →
      calculateHitsScore c.hits c.powerFactor =
        c.hits.A * 5 + c.hits.C * 3 + c.hits.D * 1 + c.hits.M * (-10) + c.hits.NS * (-10)) := by
  refine ⟨?_, ?_, ?_⟩
  · unfold calculateStageScore
    rw [if_neg (by push_neg; exact ⟨hpos.ne', hpos⟩)]
    simp [jsNumOr_zero]
  · simp [calculateHitsScore]
  · intro hminor
    simp [calculateHitsScore, hminor]

def witnessComp7 : Competitor :=
  { name := "W", division := "D", powerFactor := "Minor", category := none,
    hitFactor := 1, time := 10, points := 120,
    hits := { A := 28, C := 0, D := 0, M := 0, NS := 0 },
    stageScoreField := none, competitorKey := "w" }

/-- Witness for C7: a Minor competitor with weighted hit score `28·5 = 140` and
reported points `120` gets `max 0 ((140−120)/10) = 2` inferred penalties. -/
theorem procedures_eq_penalty_formula_witness :
    (calculateStageScore witnessComp7 1 150 1 none).procedures =
      max 0 ((calculateHitsScore witnessComp7.hits witnessComp7.powerFactor -
        witnessComp7.points) / 10) ∧
    (calculateStageScore witnessComp7 1 150 1 none).procedures = 2 := by
  have h := procedures_eq_penalty_formula witnessComp7 1 150 1 none (by norm_num)
  refine ⟨h.1, ?_⟩
  rw [h.1]
  norm_num [calculateHitsScore, witnessComp7]

/-! ## C10: no penalty inference on the degenerate branch -/

/-- **C10.** When the pool max hit factor is `0` or negative, `calculateStageScore`
takes the degenerate branch and reports `0` procedures, regardless of the gap
between the weighted hit score and the reported points. -/
theorem procedures_zero_on_nonpositive_max (c : Competitor) (maxHitFactor mps n : ℚ)
    (nm : Option String) (h : maxHitFactor ≤ 0) :
    (calculateStageScore c maxHitFactor mps n nm).procedures = 0 := by
  unfold calculateStageScore
  rw [if_pos (Or.inr h)]

def witnessComp10 : Competitor :=
  { name := "W", division := "D", powerFactor := "Minor", category := none,
    hitFactor := 0, time := 10, points := 0,
    hits := { A := 28, C := 0, D := 0, M := 0, NS := 0 },
    stageScoreField := none, competitorKey := "w" }

/-- Witness for C10: hit score `140`, points `0` (gap `140`), yet `0` procedures
because the pool max hit factor is `0`. -/
theorem procedures_zero_on_nonpositive_max_witness :
    (calculateStageScore witnessComp10 0 150 1 none).procedures = 0 ∧
    calculateHitsScore witnessComp10.hits witnessComp10.powerFactor = 140 := by
  refine ⟨procedures_zero_on_nonpositive_max witnessComp10 0 150 1 none (by norm_num), ?_⟩
  norm_num [calculateHitsScore, witnessComp10]

/-! ## C9: stages with no positive pool hit factor -/

/-- **C9.** If no competitor of the category-filtered pool has a positive hit
factor, the pool max hit factor is `0` and every computed stage score for that
stage is `0`. -/
theorem zero_scores_without_positive_hitfactor (stage : Stage) (category : Option String)
    (h : ∀ c ∈ filteredCompetitors stage.competitors category, c.hitFactor ≤ 0) :
    maxHitFactorForStage stage category = 0 ∧
    ∀ (c : Competitor) (mps n : ℚ) (nm : Option String),
      (calculateStageScore c (maxHitFactorForStage stage category) mps n nm).score = 0 := by
  have hmax : maxHitFactorForStage stage category = 0 := by
    have hempty : validHitFactorsOf stage category = [] := by
      unfold validHitFactorsOf
      rw [List.filter_eq_nil_iff]
      intro hf hmem
      rcases List.mem_map.mp hmem with ⟨c, hc, rfl⟩
      simp only [Bool.and_eq_true, decide_eq_true_eq]
      intro hcontra
      exact absurd hcontra.2 (not_lt.mpr (h c hc))
    unfold maxHitFactorForStage
    rw [hempty]
  refine ⟨hmax, fun c mps n nm => ?_⟩
  rw [hmax]
  unfold calculateStageScore
  rw [if_pos (Or.inl rfl)]

def witnessStage9 : Stage :=
  { stage := 1, stageName := none,
    competitors := [witnessComp10],
    maxPossibleScore := some 150, procedures := 0 }

/-- Witness for C9: a one-competitor stage with hit factor `0` yields pool max `0`
and a `0` stage score. -/
theorem zero_scores_without_positive_hitfactor_witness :
    maxHitFactorForStage witnessStage9 none = 0 ∧
    (calculateStageScore witnessComp10 (maxHitFactorForStage witnessStage9 none)
      150 1 none).score = 0 := by
  have h := zero_scores_without_positive_hitfactor witnessStage9 none
    (by intro c hc; simp [filteredCompetitors, jsCategoryActive, witnessStage9] at hc;
        simp [hc, witnessComp10])
  exact ⟨h.1, h.2 witnessComp10 150 1 none⟩

/-! ## C5: the pool-max competitor scores the stage maximum -/

/-- **C5.** For a stage whose category-filtered pool max hit factor is positive,
a scored competitor whose hit factor equals that pool maximum gets a stage score
exactly equal to the stage's `maxPossibleScore` (`(hf / hf) · max = max`, exact
in ℚ). -/
theorem pool_max_scores_max_possible (stage : Stage) (category : Option String)
    (c : Competitor) (mps n : ℚ) (nm : Option String)
    (hpos : 0 < maxHitFactorForStage stage category)
    (hc : c.hitFactor = maxHitFactorForStage stage category) :
    (calculateStageScore c (maxHitFactorForStage stage category) mps n nm).score = mps := by
  unfold calculateStageScore
  rw [if_neg (by push_neg; exact ⟨hpos.ne', hpos⟩)]
  simp only [hc]
  rw [div_self hpos.ne', one_mul]

def witnessComp5X : Competitor :=
  { name := "X", division := "D", powerFactor := "Minor", category := none,
    hitFactor := 407/100, time := 10, points := 140,
    hits := { A := 27, C := 3, D := 0, M := 0, NS := 0 },
    stageScoreField := none, competitorKey := "x" }

def witnessComp5Y : Competitor :=
  { name := "Y", division := "D", powerFactor := "Minor", category := none,
    hitFactor := 2, time := 20, points := 140,
    hits := { A := 27, C := 3, D := 0, M := 0, NS := 0 },
    stageScoreField := none, competitorKey := "y" }

def witnessStage5 : Stage :=
  { stage := 1, stageName := none,
    competitors := [witnessComp5X, witnessComp5Y],
    maxPossibleScore := some 150, procedures := 0 }

/-- Witness for C5 (the spec's Example A): hit factors `4.07` and `2.0`;
the pool max scorer X receives exactly `maxPossibleScore = 150`. -/
theorem pool_max_scores_max_possible_witness :
    maxHitFactorForStage witnessStage5 none = 407/100 ∧
    (calculateStageScore witnessComp5X (maxHitFactorForStage witnessStage5 none)
      150 1 none).score = 150 := by
  have hmax : maxHitFactorForStage witnessStage5 none = 407/100 := by
    norm_num [maxHitFactorForStage, validHitFactorsOf, filteredCompetitors,
      jsCategoryActive, witnessStage5, witnessComp5X, witnessComp5Y]
  refine ⟨hmax, pool_max_scores_max_possible witnessStage5 none witnessComp5X 150 1 none
    (by rw [hmax]; norm_num) (by rw [hmax]; norm_num [witnessComp5X])⟩

/-! ## C8: comparison mode's stage set -/

/-- A stage has a scorecard for a key iff some competitor row carries that key. -/
def stageHasKey (s : Stage) (k : String) : Prop :=
  ∃ c ∈ s.competitors, c.competitorKey = k

/-- **C8.** The stage set used by comparison mode is exactly the sublist of input
stages on which every requested key has a scorecard; a pair of requested keys that
never share a stage collapses the set to empty; and `compareCompetitors` runs the
scoring engine on exactly that stage set. -/
theorem comparison_common_stages (stages : List Stage) (keys : List String)
    (category : Option String) :
    (∀ s, s ∈ commonStagesOf stages keys ↔
      s ∈ stages ∧ ∀ k ∈ keys, stageHasKey s k) ∧
    (commonStagesOf stages keys).Sublist stages ∧
    (∀ k1 ∈ keys, ∀ k2 ∈ keys,
      (∀ s ∈ stages, ¬(stageHasKey s k1 ∧ stageHasKey s k2)) →
      commonStagesOf stages keys = []) ∧
    compareCompetitors stages keys category =
      calculateScoresForStages (commonStagesOf stages keys) category := by
  have hmem : ∀ s, s ∈ commonStagesOf stages keys ↔
      s ∈ stages ∧ ∀ k ∈ keys, stageHasKey s k := by
    intro s
    unfold commonStagesOf stageHasKey
    rw [List.mem_filter]
    simp [List.all_eq_true, List.any_eq_true]
  refine ⟨hmem, List.filter_sublist stages, ?_, rfl⟩
  intro k1 hk1 k2 hk2 hdisj
  rcases hvac : commonStagesOf stages keys with _ | ⟨s, rest⟩
  · rfl
  · exfalso
    have hs : s ∈ commonStagesOf stages keys := by
      rw [hvac]; exact List.mem_cons_self s rest
    rcases (hmem s).mp hs with ⟨hsin, hall⟩
    exact hdisj s hsin ⟨hall k1 hk1, hall k2 hk2⟩

def witnessStage8A : Stage :=
  { stage := 1, stageName := none, competitors := [witnessComp5X],
    maxPossibleScore := some 150, procedures := 0 }

def witnessStage8B : Stage :=
  { stage := 2, stageName := none, competitors := [witnessComp5Y],
    maxPossibleScore := some 150, procedures := 0 }

/-- Witness for C8: keys `x` and `y` never share a stage, so the comparison
stage set is empty. -/
theorem comparison_common_stages_witness :
    commonStagesOf [witnessStage8A, witnessStage8B] ["x", "y"] = [] := by
  refine (comparison_common_stages [witnessStage8A, witnessStage8B] ["x", "y"]
    none).2.2.1 "x" (by decide) "y" (by decide) ?_
  intro s hs hboth
  rcases hboth with ⟨⟨c1, hc1, hk1⟩, ⟨c2, hc2, hk2⟩⟩
  rcases List.mem_cons.mp hs with rfl | hs'
  · simp only [witnessStage8A, List.mem_singleton] at hc1 hc2
    subst hc1; subst hc2
    exact absurd hk2 (by decide)
  · rcases List.mem_cons.mp hs' with rfl | hnil
    · simp only [witnessStage8B, List.mem_singleton] at hc1 hc2
      subst hc1; subst hc2
      exact absurd hk1 (by decide)
    · cases hnil

/-! ## C6: derivation of stage maximum scores -/

def cex6Stage : Stage :=
  { stage := 1, stageName := none, competitors := [witnessComp10],
    maxPossibleScore := some 0, procedures := 0 }

/-- Counterexample to C6 as stated: the upstream supplied `maxPossibleScore = 0`
for this stage, but `calculateMaxPossibleScores` does not leave it unchanged - the
JavaScript truthiness test `if (stage.maxPossibleScore)` treats `0` as absent and
the value is recomputed as `(28 + 0 + 0 + 0) * 5 = 140` from the first competitor. -/
theorem maxScore_supplied_zero_overwritten :
    cex6Stage.maxPossibleScore = some 0 ∧
    (calculateMaxPossibleScores [cex6Stage]).map Stage.maxPossibleScore = [some 140] := by
  constructor
  · rfl
  · norm_num [calculateMaxPossibleScores, cex6Stage, jsOptNumOr, witnessComp10]

/-- Case analysis of the per-stage transformation inside `calculateMaxPossibleScores`. -/
theorem calculateMaxPossibleScores_cases (s : Stage) :
    (s.competitors = [] ∧
      calculateMaxPossibleScores [s] = [{ s with maxPossibleScore := none }]) ∨
    (s.competitors ≠ [] ∧ jsOptNumOr s.maxPossibleScore 0 ≠ 0 ∧
      calculateMaxPossibleScores [s] = [s]) ∨
    (∃ c cs, s.competitors = c :: cs ∧ jsOptNumOr s.maxPossibleScore 0 = 0 ∧
      calculateMaxPossibleScores [s] =
        [{ s with maxPossibleScore := some ((c.hits.A + c.hits.C + c.hits.D + c.hits.M) * 5) }]) := by
  by_cases hempty : s.competitors = []
  · exact Or.inl ⟨hempty, by simp [calculateMaxPossibleScores, hempty]⟩
  · by_cases htruthy : jsOptNumOr s.maxPossibleScore 0 ≠ 0
    · exact Or.inr (Or.inl ⟨hempty, htruthy,
        by simp [calculateMaxPossibleScores, hempty, htruthy]⟩)
    · push_neg at htruthy
      rcases hcs : s.competitors with _ | ⟨c, cs⟩
      · exact absurd hcs hempty
      · refine Or.inr (Or.inr ⟨c, cs, rfl, htruthy, ?_⟩)
        simp [calculateMaxPossibleScores, hempty, htruthy, hcs]

/-- **C6 (amended).** `calculateMaxPossibleScores` maps each stage as follows: a
stage with no competitors gets an undefined max (even if one was supplied); a
supplied *nonzero* value on a stage with competitors is preserved unchanged
(the whole stage is returned as is); a stage with competitors whose supplied
value is absent or `0` gets `(A + C + D + M) * 5` from the first competitor's
hits.  In particular a supplied `0` is *not* preserved. -/
theorem calculateMaxPossibleScores_spec (stages : List Stage) (i : ℕ) (s : Stage)
    (hs : stages[i]? = some s) :
    ∃ s', (calculateMaxPossibleScores stages)[i]? = some s' ∧
      s'.competitors = s.competitors ∧
      (s.competitors = [] → s'.maxPossibleScore = none) ∧
      (∀ (v : ℚ), s.maxPossibleScore = some v → v ≠ 0 → s.competitors ≠ [] → s' = s) ∧
      (∀ (c : Competitor) (cs : List Competitor), s.competitors = c :: cs →
        jsOptNumOr s.maxPossibleScore 0 = 0 →
        s'.maxPossibleScore =
          some ((c.hits.A + c.hits.C + c.hits.D + c.hits.M) * 5)) := by
  have hpt : ∀ (t : Stage), calculateMaxPossibleScores [s] = [t] →
      (calculateMaxPossibleScores stages)[i]? = some t := by
    intro t ht
    have h1 : (calculateMaxPossibleScores [s])[0]? = some t := by rw [ht]; rfl
    unfold calculateMaxPossibleScores at h1 ⊢
    rw [List.getElem?_map, hs]
    rw [List.getElem?_map] at h1
    simpa using h1
  rcases calculateMaxPossibleScores_cases s with
    ⟨hempty, hlist⟩ | ⟨hempty, htruthy, hlist⟩ | ⟨c, cs, hcs, hzero, hlist⟩
  · refine ⟨_, hpt _ hlist, rfl, fun _ => rfl, ?_, ?_⟩
    · intro v _ _ hne
      exact absurd hempty hne
    · intro c cs hcs _
      rw [hempty] at hcs
      cases hcs
  · refine ⟨s, hpt s hlist, rfl, fun h => absurd h hempty, fun _ _ _ _ => rfl, ?_⟩
    intro c cs _ hzero
    exact absurd hzero htruthy
  · refine ⟨_, hpt _ hlist, rfl, ?_, ?_, ?_⟩
    · intro h
      rw [h] at hcs
      cases hcs
    · intro v hv hvne _
      rw [hv] at hzero
      simp only [jsOptNumOr] at hzero
      rw [if_neg hvne] at hzero
      exact absurd hzero hvne
    · intro c' cs' hcs' _
      rw [hcs] at hcs'
      cases hcs'
      rfl

def witnessStage6 : Stage :=
  { stage := 2, stageName := none, competitors := [witnessComp5X],
    maxPossibleScore := none, procedures := 0 }

/-- Witness for the amended C6: a stage without a supplied max score gets
`(27 + 3 + 0 + 0) * 5 = 150` from its first competitor. -/
theorem calculateMaxPossibleScores_spec_witness :
    ((calculateMaxPossibleScores [witnessStage6])[0]?).map Stage.maxPossibleScore =
      some (some 150) := by
  rcases calculateMaxPossibleScores_spec [witnessStage6] 0 witnessStage6 rfl with
    ⟨s', hs', _, _, _, hderive⟩
  have hmax := hderive witnessComp5X [] rfl (by norm_num [witnessStage6, jsOptNumOr])
  rw [hs', Option.map_some', hmax]
  norm_num [witnessComp5X]

/-! ## Association list and roster lemmas -/

theorem mem_setAssoc {α : Type} (m : List (String × α)) (k : String) (v : α)
    (p : String × α) (hp : p ∈ setAssoc m k v) : p = (k, v) ∨ p ∈ m := by
  unfold setAssoc at hp
  split at hp
  · rcases List.mem_map.mp hp with ⟨q, hq, hqe⟩
    by_cases hqk : q.1 = k
    · rw [if_pos hqk] at hqe
      exact Or.inl hqe.symm
    · rw [if_neg hqk] at hqe
      exact Or.inr (hqe ▸ hq)
  · rcases List.mem_append.mp hp with h | h
    · exact Or.inr h
    · exact Or.inl (List.mem_singleton.mp h)

theorem getAssoc_mem {α : Type} (m : List (String × α)) (k : String) (v : α)
    (h : getAssoc m k = some v) : (k, v) ∈ m := by
  unfold getAssoc at h
  rcases Option.map_eq_some'.mp h with ⟨p, hfind, hsnd⟩
  have hk : p.1 = k := by
    have := List.find?_some hfind
    exact decide_eq_true_eq.mp this
  have hmem := List.mem_of_find?_eq_some hfind
  have : p = (k, v) := by
    rcases p with ⟨a, b⟩
    cases hk
    cases hsnd
    rfl
  exact this ▸ hmem

theorem filteredCompetitors_subset (l : List Competitor) (category : Option String)
    (c : Competitor) (hc : c ∈ filteredCompetitors l category) : c ∈ l := by
  unfold filteredCompetitors at hc
  split at hc
  · exact List.mem_filter.mp hc |>.1
  · exact hc

theorem filteredCompetitors_category (l : List Competitor) (category : Option String)
    (hact : jsCategoryActive category = true) (c : Competitor)
    (hc : c ∈ filteredCompetitors l category) : c.category = category := by
  unfold filteredCompetitors at hc
  rw [if_pos hact] at hc
  exact decide_eq_true_eq.mp (List.mem_filter.mp hc).2

theorem mem_filteredCompetitors (l : List Competitor) (category : Option String)
    (c : Competitor) (hc : c ∈ l)
    (hcat : jsCategoryActive category = true → c.category = category) :
    c ∈ filteredCompetitors l category := by
  unfold filteredCompetitors
  split
  · next hact => exact List.mem_filter.mpr ⟨hc, decide_eq_true_eq.mpr (hcat hact)⟩
  · exact hc

theorem mem_competitorEntriesOf (stages : List Stage) (category : Option String)
    (e : CompetitorKeyEntry) (he : e ∈ competitorEntriesOf stages category) :
    ∃ s ∈ stages, ∃ c ∈ filteredCompetitors s.competitors category,
      e = { name := c.name, division := c.division, key := c.competitorKey } := by
  unfold competitorEntriesOf at he
  rcases List.mem_flatten.mp he with ⟨inner, hinner, hein⟩
  rcases List.mem_map.mp hinner with ⟨s, hsmem, rfl⟩
  rcases List.mem_map.mp hein with ⟨c, hcmem, rfl⟩
  exact ⟨s, hsmem, c, hcmem, rfl⟩

theorem hitFactor_le_maxHitFactor (stage : Stage) (category : Option String)
    (c : Competitor) (hc : c ∈ filteredCompetitors stage.competitors category)
    (hpos : 0 < c.hitFactor) : c.hitFactor ≤ maxHitFactorForStage stage category := by
  have hmem : c.hitFactor ∈ validHitFactorsOf stage category := by
    unfold validHitFactorsOf
    refine List.mem_filter.mpr ⟨List.mem_map.mpr ⟨c, hc, rfl⟩, ?_⟩
    simp [hpos.ne', hpos]
  unfold maxHitFactorForStage
  rcases hval : validHitFactorsOf stage category with _ | ⟨h, t⟩
  · rw [hval] at hmem
    cases hmem
  · rw [hval] at hmem
    exact le_foldl_max t h c.hitFactor (by
      rcases List.mem_cons.mp hmem with h' | h'
      · exact Or.inl h'
      · exact Or.inr h')

/-- The echoed `maxPossibleScore` field of a stage score is the argument. -/
theorem calculateStageScore_maxPossibleScore (c : Competitor) (mhf mps n : ℚ)
    (nm : Option String) : (calculateStageScore c mhf mps n nm).maxPossibleScore = mps := by
  unfold calculateStageScore
  split <;> rfl

/-- Core bound: if the competitor's positive hit factor never exceeds the pool
max, the computed score is at most `maxPossibleScore` (assumed nonnegative). -/
theorem calculateStageScore_score_le (c : Competitor) (mhf mps n : ℚ)
    (nm : Option String) (hmps : 0 ≤ mps)
    (hle : 0 < mhf → 0 < c.hitFactor → c.hitFactor ≤ mhf) :
    (calculateStageScore c mhf mps n nm).score ≤ mps := by
  unfold calculateStageScore
  split
  · exact hmps
  · next hguard =>
      push_neg at hguard
      have hmhf : 0 < mhf := hguard.2
      simp only
      rcases le_or_lt c.hitFactor 0 with hhf | hhf
      · have hratio : c.hitFactor / mhf ≤ 0 :=
          div_nonpos_iff.mpr (Or.inr ⟨hhf, le_of_lt hmhf⟩)
        exact le_trans (mul_nonpos_iff.mpr (Or.inr ⟨hratio, hmps⟩)) hmps
      · have hratio : c.hitFactor / mhf ≤ 1 :=
          (div_le_one hmhf).mpr (hle hmhf hhf)
        calc c.hitFactor / mhf * mps ≤ 1 * mps :=
              mul_le_mul_of_nonneg_right hratio hmps
          _ = mps := one_mul mps

/-! ## C2: stage scores never exceed the stage maximum -/

/-- The invariant carried through the competitor map: every recorded stage score
is bounded by its own echoed `maxPossibleScore`. -/
def BoundedScores (m : List (String × CompetitorWithTotalScore)) : Prop :=
  ∀ p ∈ m, ∀ ss ∈ p.2.stageScores, ss.score ≤ ss.maxPossibleScore

theorem boundedScores_initial (entries : List CompetitorKeyEntry) :
    BoundedScores (initialCompetitorMap entries) := by
  unfold initialCompetitorMap
  suffices h : ∀ (l : List CompetitorKeyEntry) (m), BoundedScores m →
      BoundedScores (l.foldl (fun m e =>
        setAssoc m e.key
          { name := e.name, division := e.division, totalScore := 0,
            stageScores := [], competitorKey := e.key }) m) by
    exact h entries [] (by intro p hp; cases hp)
  intro l
  induction l with
  | nil => intro m hm; exact hm
  | cons e l ih =>
      intro m hm
      refine ih _ ?_
      intro p hp ss hss
      rcases mem_setAssoc _ _ _ p hp with rfl | hp'
      · cases hss
      · exact hm p hp' ss hss

theorem boundedScores_processStage (stages : List Stage) (category : Option String)
    (entries : List CompetitorKeyEntry) (s : Stage) (hs : s ∈ stages)
    (hentries : entries = competitorEntriesOf stages category)
    (hmax : ∀ t ∈ stages, ∀ v, t.maxPossibleScore = some v → 0 ≤ v)
    (hcat : ∀ t ∈ stages, ∀ c ∈ t.competitors, ∀ t' ∈ stages, ∀ c' ∈ t'.competitors,
      c.competitorKey = c'.competitorKey → c.category = c'.category)
    (m : List (String × CompetitorWithTotalScore)) (hm : BoundedScores m) :
    BoundedScores (processStage entries category m s) := by
  unfold processStage
  have hmps : 0 ≤ jsOptNumOr s.maxPossibleScore 0 := by
    rcases hv : s.maxPossibleScore with _ | v
    · simp [jsOptNumOr, hv]
    · by_cases hz : v = 0
      · simp [jsOptNumOr, hv, hz]
      · simpa [jsOptNumOr, hv, hz] using hmax s hs v hv
  suffices h : ∀ (l : List Competitor), (∀ c ∈ l, c ∈ s.competitors ∧
      includedCompetitor entries c = true) → ∀ m, BoundedScores m →
      BoundedScores (l.foldl (fun m competitor =>
        match getAssoc m competitor.competitorKey with
        | none => m
        | some competitorData =>
            setAssoc m competitor.competitorKey
              { competitorData with
                stageScores := competitorData.stageScores ++
                  [calculateStageScore competitor (maxHitFactorForStage s category)
                    (jsOptNumOr s.maxPossibleScore 0) s.stage s.stageName],
                totalScore := competitorData.totalScore +
                  (calculateStageScore competitor (maxHitFactorForStage s category)
                    (jsOptNumOr s.maxPossibleScore 0) s.stage s.stageName).score }) m) by
    refine h _ ?_ m hm
    intro c hc
    have := List.mem_filter.mp hc
    exact ⟨this.1, this.2⟩
  intro l
  induction l with
  | nil => intro _ m hm'; exact hm'
  | cons c l ih =>
      intro hl m hm'
      rcases hl c (List.mem_cons_self c l) with ⟨hcs, hinc⟩
      refine ih (fun c' hc' => hl c' (List.mem_cons_of_mem c hc')) _ ?_
      rcases hga : getAssoc m c.competitorKey with _ | d
      · simpa [hga] using hm'
      · simp only [hga]
        intro p hp ss hss
        rcases mem_setAssoc _ _ _ p hp with rfl | hp'
        · simp only at hss
          rcases List.mem_append.mp hss with hold | hnew
          · exact hm' _ (getAssoc_mem m c.competitorKey d hga) ss hold
          · have hseq := List.mem_singleton.mp hnew
            subst hseq
            rw [calculateStageScore_maxPossibleScore]
            refine calculateStageScore_score_le c _ _ _ _ hmps ?_
            intro hmhf hhf
            refine hitFactor_le_maxHitFactor s category c ?_ hhf
            rcases List.any_eq_true.mp hinc with ⟨e, hemem, hekey⟩
            rw [hentries] at hemem
            rcases mem_competitorEntriesOf stages category e hemem with
              ⟨s', hs', c', hc', rfl⟩
            refine mem_filteredCompetitors s.competitors category c hcs ?_
            intro hact
            have hkeys : c.competitorKey = c'.competitorKey :=
              (decide_eq_true_eq.mp hekey).symm
            have := hcat s hs c hcs s' hs' c'
              (filteredCompetitors_subset s'.competitors category c' hc') hkeys
            rw [this]
            exact filteredCompetitors_category s'.competitors category hact c' hc'
        · exact hm' p hp' ss hss

/-- **C2 (amended).** If every supplied stage `maxPossibleScore` is nonnegative
and the category of a scorecard is a function of the competitor key (the same
competitor never carries two different categories), then every stage score
computed by the engine - in whole-roster, category-filtered, or comparison mode -
is at most the stage's `maxPossibleScore` (echoed in the score record). -/
theorem stage_scores_bounded (stages : List Stage) (category : Option String)
    (keys : List String)
    (hmax : ∀ s ∈ stages, ∀ v, s.maxPossibleScore = some v → 0 ≤ v)
    (hcat : ∀ s ∈ stages, ∀ c ∈ s.competitors, ∀ s' ∈ stages, ∀ c' ∈ s'.competitors,
      c.competitorKey = c'.competitorKey → c.category = c'.category) :
    (∀ r ∈ calculateScoresForStages stages category, ∀ ss ∈ r.stageScores,
      ss.score ≤ ss.maxPossibleScore) ∧
    (∀ r ∈ compareCompetitors stages keys category, ∀ ss ∈ r.stageScores,
      ss.score ≤ ss.maxPossibleScore) := by
  have hmain : ∀ (L : List Stage),
      (∀ s ∈ L, s ∈ stages) →
      ∀ r ∈ calculateScoresForStages L category, ∀ ss ∈ r.stageScores,
        ss.score ≤ ss.maxPossibleScore := by
    intro L hL r hr ss hss
    unfold calculateScoresForStages at hr
    rw [List.mem_mergeSort] at hr
    rcases List.mem_map.mp hr with ⟨p, hp, rfl⟩
    have hLmax : ∀ t ∈ L, ∀ v, t.maxPossibleScore = some v → 0 ≤ v :=
      fun t ht => hmax t (hL t ht)
    have hLcat : ∀ t ∈ L, ∀ c ∈ t.competitors, ∀ t' ∈ L, ∀ c' ∈ t'.competitors,
        c.competitorKey = c'.competitorKey → c.category = c'.category :=
      fun t ht c hc t' ht' => hcat t (hL t ht) c hc t' (hL t' ht')
    have hfold : ∀ (M : List Stage), (∀ s ∈ M, s ∈ L) →
        ∀ m, BoundedScores m →
        BoundedScores (M.foldl (processStage (competitorEntriesOf L category) category) m) := by
      intro M
      induction M with
      | nil => intro _ m hm; exact hm
      | cons s M ih =>
          intro hM m hm
          refine ih (fun t ht => hM t (List.mem_cons_of_mem s ht)) _ ?_
          exact boundedScores_processStage L category _ s (hM s (List.mem_cons_self s M))
            rfl hLmax hLcat m hm
    have hB := hfold L (fun _ h => h) (initialCompetitorMap (competitorEntriesOf L category))
      (boundedScores_initial _)
    exact hB p hp ss hss
  refine ⟨hmain stages (fun _ h => h), ?_⟩
  intro r hr
  unfold compareCompetitors at hr
  refine hmain (commonStagesOf stages keys) ?_ r hr
  intro s hsmem
  unfold commonStagesOf at hsmem
  exact (List.mem_filter.mp hsmem).1

def cex2K1 : Competitor :=
  { name := "K", division := "D", powerFactor := "Minor", category := some "S",
    hitFactor := 1, time := 10, points := 10,
    hits := { A := 2, C := 0, D := 0, M := 0, NS := 0 },
    stageScoreField := none, competitorKey := "K" }

def cex2K2 : Competitor :=
  { name := "K", division := "D", powerFactor := "Minor", category := some "L",
    hitFactor := 10, time := 10, points := 10,
    hits := { A := 2, C := 0, D := 0, M := 0, NS := 0 },
    stageScoreField := none, competitorKey := "K" }

def cex2J2 : Competitor :=
  { name := "J", division := "D", powerFactor := "Minor", category := some "S",
    hitFactor := 2, time := 10, points := 10,
    hits := { A := 2, C := 0, D := 0, M := 0, NS := 0 },
    stageScoreField := none, competitorKey := "J" }

def cex2Stage1 : Stage :=
  { stage := 1, stageName := none, competitors := [cex2K1],
    maxPossibleScore := some 10, procedures := 0 }

def cex2Stage2 : Stage :=
  { stage := 2, stageName := none, competitors := [cex2K2, cex2J2],
    maxPossibleScore := some 10, procedures := 0 }

def cex2ScoreK1 : StageScore :=
  { stage := 1, stageName := "Stage " ++ toString (1 : ℚ), score := 10,
    hits := { A := 2, C := 0, D := 0, M := 0, NS := 0 },
    points := 10, time := 10, procedures := 0, maxPossibleScore := 10, hitFactor := 1 }

def cex2ScoreK2 : StageScore :=
  { stage := 2, stageName := "Stage " ++ toString (2 : ℚ), score := 50,
    hits := { A := 2, C := 0, D := 0, M := 0, NS := 0 },
    points := 10, time := 10, procedures := 0, maxPossibleScore := 10, hitFactor := 10 }

def cex2ScoreJ2 : StageScore :=
  { stage := 2, stageName := "Stage " ++ toString (2 : ℚ), score := 10,
    hits := { A := 2, C := 0, D := 0, M := 0, NS := 0 },
    points := 10, time := 10, procedures := 0, maxPossibleScore := 10, hitFactor := 2 }

def cex2ResultK : CompetitorWithTotalScore :=
  { name := "K", division := "D", totalScore := 60,
    stageScores := [cex2ScoreK1, cex2ScoreK2], competitorKey := "K" }

def cex2ResultJ : CompetitorWithTotalScore :=
  { name := "J", division := "D", totalScore := 10,
    stageScores := [cex2ScoreJ2], competitorKey := "J" }

set_option maxHeartbeats 2000000 in
/-- Counterexample to C2 as stated: with the category filter `"S"` active,
competitor `K` (category `"S"` on stage 1 but `"L"` on stage 2) is in the roster,
and on stage 2 the pool max hit factor is taken over category-`"S"` rows only
(`2`), while `K`'s own row has hit factor `10`.  `K`'s computed stage-2 score is
`(10/2)·10 = 50`, exceeding that stage's defined `maxPossibleScore = 10`. -/
theorem stage_score_exceeds_max_cex :
    cex2Stage2.maxPossibleScore = some 10 ∧
    ¬ (∀ r ∈ calculateScoresForStages [cex2Stage1, cex2Stage2] (some "S"),
        ∀ ss ∈ r.stageScores, ss.score ≤ ss.maxPossibleScore) := by
  refine ⟨rfl, ?_⟩
  intro hclaim
  have hfold : ([cex2Stage1, cex2Stage2].foldl
      (processStage (competitorEntriesOf [cex2Stage1, cex2Stage2] (some "S")) (some "S"))
      (initialCompetitorMap (competitorEntriesOf [cex2Stage1, cex2Stage2] (some "S"))))
      = [("K", cex2ResultK), ("J", cex2ResultJ)] := by
    norm_num +decide [processStage, initialCompetitorMap, competitorEntriesOf,
      filteredCompetitors, jsCategoryActive, includedCompetitor, getAssoc, setAssoc,
      maxHitFactorForStage, validHitFactorsOf, calculateStageScore, calculateHitsScore,
      jsNumOr, jsOptNumOr, jsStringOr, cex2Stage1, cex2Stage2, cex2K1, cex2K2, cex2J2,
      cex2ResultK, cex2ResultJ, cex2ScoreK1, cex2ScoreK2, cex2ScoreJ2]
  have hmem : cex2ResultK ∈ calculateScoresForStages [cex2Stage1, cex2Stage2] (some "S") := by
    unfold calculateScoresForStages
    rw [List.mem_mergeSort]
    refine List.mem_map.mpr ⟨("K", cex2ResultK), ?_, rfl⟩
    rw [hfold]
    exact List.mem_cons_self _ _
  have hbound := hclaim cex2ResultK hmem cex2ScoreK2
    (by simp [cex2ResultK])
  have : ¬ ((cex2ScoreK2).score ≤ (cex2ScoreK2).maxPossibleScore) := by
    norm_num [cex2ScoreK2]
  exact this hbound

def witnessStage2A : Stage :=
  { stage := 1, stageName := none, competitors := [cex2K1, cex2J2],
    maxPossibleScore := some 10, procedures := 0 }

def witness2ScoreK : StageScore :=
  { stage := 1, stageName := "Stage " ++ toString (1 : ℚ), score := 5,
    hits := { A := 2, C := 0, D := 0, M := 0, NS := 0 },
    points := 10, time := 10, procedures := 0, maxPossibleScore := 10, hitFactor := 1 }

def witness2ScoreJ : StageScore :=
  { stage := 1, stageName := "Stage " ++ toString (1 : ℚ), score := 10,
    hits := { A := 2, C := 0, D := 0, M := 0, NS := 0 },
    points := 10, time := 10, procedures := 0, maxPossibleScore := 10, hitFactor := 2 }

def witness2ResultK : CompetitorWithTotalScore :=
  { name := "K", division := "D", totalScore := 5,
    stageScores := [witness2ScoreK], competitorKey := "K" }

def witness2ResultJ : CompetitorWithTotalScore :=
  { name := "J", division := "D", totalScore := 10,
    stageScores := [witness2ScoreJ], competitorKey := "J" }

set_option maxHeartbeats 2000000 in
/-- Witness for the amended C2: on a category-consistent stage, the computed
score `(1/2)·10 = 5` of competitor `K` is at most `maxPossibleScore = 10`. -/
theorem stage_scores_bounded_witness :
    witness2ScoreK.score ≤ witness2ScoreK.maxPossibleScore := by
  have hthm := (stage_scores_bounded [witnessStage2A] (some "S") []
    (by
      intro s hs v hv
      rcases List.mem_singleton.mp hs with rfl
      simp only [witnessStage2A] at hv
      cases hv
      norm_num)
    (by
      intro s hs c hc s' hs' c' hc' hk
      rcases List.mem_singleton.mp hs with rfl
      rcases List.mem_singleton.mp hs' with rfl
      simp only [witnessStage2A] at hc hc'
      rcases List.mem_cons.mp hc with rfl | hc2
      · rcases List.mem_cons.mp hc' with rfl | hc2'
        · rfl
        · rcases List.mem_singleton.mp hc2' with rfl
          exact absurd hk (by decide)
      · rcases List.mem_singleton.mp hc2 with rfl
        rcases List.mem_cons.mp hc' with rfl | hc2'
        · exact absurd hk (by decide)
        · rcases List.mem_singleton.mp hc2' with rfl
          rfl)).1
  have hfold : ([witnessStage2A].foldl
      (processStage (competitorEntriesOf [witnessStage2A] (some "S")) (some "S"))
      (initialCompetitorMap (competitorEntriesOf [witnessStage2A] (some "S"))))
      = [("K", witness2ResultK), ("J", witness2ResultJ)] := by
    norm_num +decide [processStage, initialCompetitorMap, competitorEntriesOf,
      filteredCompetitors, jsCategoryActive, includedCompetitor, getAssoc, setAssoc,
      maxHitFactorForStage, validHitFactorsOf, calculateStageScore, calculateHitsScore,
      jsNumOr, jsOptNumOr, jsStringOr, witnessStage2A, cex2K1, cex2J2,
      witness2ResultK, witness2ResultJ, witness2ScoreK, witness2ScoreJ]
  have hmem : witness2ResultK ∈ calculateScoresForStages [witnessStage2A] (some "S") := by
    unfold calculateScoresForStages
    rw [List.mem_mergeSort]
    refine List.mem_map.mpr ⟨("K", witness2ResultK), ?_, rfl⟩
    rw [hfold]
    exact List.mem_cons_self _ _
  exact hthm witness2ResultK hmem witness2ScoreK (by simp [witness2ResultK])

/-! ## Association-map lemmas for the merge machinery -/

theorem getAssoc_nil {α : Type} (k : String) : getAssoc ([] : List (String × α)) k = none := rfl

theorem getAssoc_eq_none_iff {α : Type} (m : List (String × α)) (k : String) :
    getAssoc m k = none ↔ ∀ p ∈ m, p.1 ≠ k := by
  unfold getAssoc
  rw [Option.map_eq_none', List.find?_eq_none]
  constructor
  · intro h p hp
    exact fun hk => h p hp (decide_eq_true_eq.mpr hk)
  · intro h p hp hk
    exact h p hp (decide_eq_true_eq.mp hk)

theorem getAssoc_cons {α : Type} (p : String × α) (m : List (String × α)) (k : String) :
    getAssoc (p :: m) k = if p.1 = k then some p.2 else getAssoc m k := by
  unfold getAssoc
  rw [List.find?_cons]
  by_cases hpk : p.1 = k
  · simp [hpk]
  · simp [hpk]

theorem getAssoc_map_update_self {α : Type} (m : List (String × α)) (k : String) (v : α) :
    getAssoc (m.map fun p => if p.1 = k then (k, v) else p) k =
      if (m.any fun p => p.1 = k) then some v else none := by
  induction m with
  | nil => rfl
  | cons p rest ih =>
      rw [List.map_cons, getAssoc_cons]
      by_cases hpk : p.1 = k
      · rw [if_pos hpk]
        simp [hpk]
      · rw [if_neg hpk]
        rw [if_neg (by simpa using hpk)]
        rw [ih]
        have : ((p :: rest).any fun p => p.1 = k) = (rest.any fun p => p.1 = k) := by
          simp [hpk]
        rw [this]

theorem getAssoc_map_update_ne {α : Type} (m : List (String × α)) (k k' : String) (v : α)
    (hk : k' ≠ k) :
    getAssoc (m.map fun p => if p.1 = k then (k, v) else p) k' = getAssoc m k' := by
  induction m with
  | nil => rfl
  | cons p rest ih =>
      rw [List.map_cons, getAssoc_cons, getAssoc_cons]
      by_cases hpk : p.1 = k
      · rw [if_pos hpk]
        rw [if_neg (by simpa using fun h : k = k' => hk h.symm)]
        rw [if_neg (by rw [hpk]; exact fun h => hk h.symm)]
        exact ih
      · rw [if_neg hpk]
        by_cases hpk' : p.1 = k'
        · rw [if_pos hpk', if_pos hpk']
        · rw [if_neg hpk', if_neg hpk']
          exact ih

theorem getAssoc_append {α : Type} (m1 m2 : List (String × α)) (k : String) :
    getAssoc (m1 ++ m2) k = (getAssoc m1 k).or (getAssoc m2 k) := by
  unfold getAssoc
  rw [List.find?_append]
  rcases List.find? (fun p : String × α => decide (p.1 = k)) m1 with _ | q
  · rfl
  · rfl

theorem getAssoc_setAssoc {α : Type} (m : List (String × α)) (k k' : String) (v : α) :
    getAssoc (setAssoc m k v) k' = if k' = k then some v else getAssoc m k' := by
  unfold setAssoc
  by_cases hany : (m.any fun p => p.1 = k) = true
  · rw [if_pos hany]
    by_cases hk : k' = k
    · subst hk
      rw [if_pos rfl, getAssoc_map_update_self, if_pos hany]
    · rw [if_neg hk, getAssoc_map_update_ne m k k' v hk]
  · rw [if_neg hany, getAssoc_append]
    have hm : getAssoc m k = none := by
      rw [getAssoc_eq_none_iff]
      intro p hp hpk
      exact hany (List.any_eq_true.mpr ⟨p, hp, decide_eq_true_eq.mpr hpk⟩)
    by_cases hk : k' = k
    · subst hk
      rw [if_pos rfl, hm, getAssoc_cons]
      simp
    · rw [if_neg hk, getAssoc_cons]
      rw [if_neg (fun h : k = k' => hk h.symm)]
      rw [getAssoc_nil]
      rcases getAssoc m k' with _ | q
      · rfl
      · rfl

/-! ## The scorecard index map -/

theorem scorecardIndexMap_snoc (c : List GraphQLScorecard) (x : GraphQLScorecard) :
    scorecardIndexMap (c ++ [x]) = setAssoc (scorecardIndexMap c) x.id c.length := by
  unfold scorecardIndexMap
  rw [List.enum_append, List.foldl_append]
  rfl

theorem get?_mem_of_eq {α : Type} (l : List α) (i : ℕ) (a : α) (h : l.get? i = some a) :
    a ∈ l := by
  rcases List.get?_eq_some.mp h with ⟨hlt, heq⟩
  exact heq ▸ List.get_mem l i hlt

theorem get?_set_self_of_lt {α : Type} (l : List α) (i : ℕ) (a : α) (h : i < l.length) :
    (l.set i a).get? i = some a := by
  rw [List.get?_set_eq]
  rcases hx : l.get? i with _ | b
  · rw [List.get?_eq_none] at hx
    omega
  · rfl

/-- Specification of the index map: a `none` lookup means the id is absent, and a
`some i` lookup points at the *last* occurrence of the id. -/
theorem scorecardIndexMap_spec (c : List GraphQLScorecard) (id : String) :
    (getAssoc (scorecardIndexMap c) id = none → ∀ x ∈ c, x.id ≠ id) ∧
    (∀ i, getAssoc (scorecardIndexMap c) id = some i →
      ∃ card, c.get? i = some card ∧ card.id = id ∧
        ∀ j card', i < j → c.get? j = some card' → card'.id ≠ id) := by
  induction c using List.reverseRecOn with
  | nil =>
      refine ⟨fun _ x hx => absurd hx (List.not_mem_nil x), fun i hi => ?_⟩
      rw [show scorecardIndexMap [] = [] from rfl, getAssoc_nil] at hi
      cases hi
  | append_singleton c x ih =>
      rw [scorecardIndexMap_snoc, getAssoc_setAssoc]
      by_cases hid : id = x.id
      · rw [if_pos hid]
        refine ⟨fun h => Option.noConfusion h, fun i hi => ?_⟩
        have hi' : i = c.length := by
          injection hi with h
          exact h.symm
        subst hi'
        refine ⟨x, List.get?_concat_length c x, hid.symm, ?_⟩
        intro j card' hj hjc
        exfalso
        have hlen : (c ++ [x]).length ≤ j := by
          simp only [List.length_append, List.length_singleton]
          omega
        rw [List.get?_len_le hlen] at hjc
        cases hjc
      · rw [if_neg hid]
        constructor
        · intro hnone y hy
          rcases List.mem_append.mp hy with hy' | hy'
          · exact ih.1 hnone y hy'
          · rcases List.mem_singleton.mp hy' with rfl
            exact fun h => hid (h.symm)
        · intro i hi
          rcases ih.2 i hi with ⟨card, hci, hcid, hlast⟩
          have hilt : i < c.length := (List.get?_eq_some.mp hci).1
          refine ⟨card, ?_, hcid, ?_⟩
          · rw [List.get?_append hilt]
            exact hci
          · intro j card' hj hjc
            by_cases hjlt : j < c.length
            · rw [List.get?_append hjlt] at hjc
              exact hlast j card' hj hjc
            · have hje : j = c.length ∨ (c ++ [x]).length ≤ j := by
                simp only [List.length_append, List.length_singleton]
                omega
              rcases hje with rfl | hbig
              · rw [List.get?_concat_length] at hjc
                injection hjc with h
                subst h
                exact fun h => hid h.symm
              · rw [List.get?_len_le hbig] at hjc
                cases hjc

theorem scorecardIndexMap_isSome (c : List GraphQLScorecard) (x : GraphQLScorecard)
    (hx : x ∈ c) : ∃ i, getAssoc (scorecardIndexMap c) x.id = some i := by
  rcases h : getAssoc (scorecardIndexMap c) x.id with _ | i
  · exact absurd rfl ((scorecardIndexMap_spec c x.id).1 h x hx)
  · exact ⟨i, rfl⟩

/-- Recognizer: a position holding the id with no later occurrence is exactly what
the index map stores. -/
theorem scorecardIndexMap_eq_of (c : List GraphQLScorecard) (id : String) (i : ℕ)
    (card : GraphQLScorecard) (hc : c.get? i = some card) (hid : card.id = id)
    (hlast : ∀ j card', i < j → c.get? j = some card' → card'.id ≠ id) :
    getAssoc (scorecardIndexMap c) id = some i := by
  have hmem : card ∈ c := get?_mem_of_eq c i card hc
  rcases scorecardIndexMap_isSome c card hmem with ⟨i', hi'⟩
  rw [hid] at hi'
  rcases (scorecardIndexMap_spec c id).2 i' hi' with ⟨card'', hc'', hid'', hlast''⟩
  rcases lt_trichotomy i i' with hlt | heq | hgt
  · exact absurd hid'' (hlast i' card'' hlt hc'')
  · rw [heq]
    exact hi'
  · exact absurd hid (hlast'' i card hgt hc)

/-! ## The scorecard merge fold -/

/-- The body of the scorecard update loop of `mergeUpdatedScorecards`, with the
index map fixed on the original cached cards. -/
def mergeStepCard (cachedCards acc : List GraphQLScorecard) (u : GraphQLScorecard) :
    List GraphQLScorecard :=
  match getAssoc (scorecardIndexMap cachedCards) u.id with
  | some i => acc.set i u
  | none => acc ++ [u]

theorem mergeScorecardsInto_eq_foldl (c u : List GraphQLScorecard) :
    mergeScorecardsInto c u = u.foldl (mergeStepCard c) c := rfl

theorem mergeFold_length_le (c : List GraphQLScorecard) :
    ∀ (u acc : List GraphQLScorecard), acc.length ≤ (u.foldl (mergeStepCard c) acc).length := by
  intro u
  induction u with
  | nil => intro acc; exact le_refl _
  | cons x u ih =>
      intro acc
      rw [List.foldl_cons]
      refine le_trans ?_ (ih (mergeStepCard c acc x))
      unfold mergeStepCard
      rcases getAssoc (scorecardIndexMap c) x.id with _ | i
      · simp
      · simp [List.length_set]

theorem mergeStepCard_append (c acc : List GraphQLScorecard) (x : GraphQLScorecard)
    (hgx : getAssoc (scorecardIndexMap c) x.id = none) :
    mergeStepCard c acc x = acc ++ [x] := by
  unfold mergeStepCard
  rw [hgx]

theorem mergeStepCard_set (c acc : List GraphQLScorecard) (x : GraphQLScorecard) (j : ℕ)
    (hgx : getAssoc (scorecardIndexMap c) x.id = some j) :
    mergeStepCard c acc x = acc.set j x := by
  unfold mergeStepCard
  rw [hgx]

theorem mergeFold_get?_id (c : List GraphQLScorecard) :
    ∀ (u acc : List GraphQLScorecard), c.length ≤ acc.length →
      (∀ i, i < c.length →
        (acc.get? i).map GraphQLScorecard.id = (c.get? i).map GraphQLScorecard.id) →
      ∀ i, i < c.length →
        ((u.foldl (mergeStepCard c) acc).get? i).map GraphQLScorecard.id =
          (c.get? i).map GraphQLScorecard.id := by
  intro u
  induction u with
  | nil => intro acc _ hacc i hi; exact hacc i hi
  | cons x u ih =>
      intro acc hlen hacc i hi
      rw [List.foldl_cons]
      rcases hgx : getAssoc (scorecardIndexMap c) x.id with _ | j
      · rw [mergeStepCard_append c acc x hgx]
        refine ih (acc ++ [x]) (by rw [List.length_append]; omega) ?_ i hi
        intro i' hi'
        rw [List.get?_append (show i' < acc.length by omega)]
        exact hacc i' hi'
      · rw [mergeStepCard_set c acc x j hgx]
        rcases (scorecardIndexMap_spec c x.id).2 j hgx with ⟨card, hcj, hcardid, _⟩
        have hjlt : j < c.length := (List.get?_eq_some.mp hcj).1
        refine ih (acc.set j x) (by rw [List.length_set]; exact hlen) ?_ i hi
        intro i' hi'
        by_cases hij : j = i'
        · subst hij
          rw [get?_set_self_of_lt acc j x (by omega)]
          rw [hcj]
          simp [hcardid]
        · rw [List.get?_set_ne x acc hij]
          exact hacc i' hi'

theorem mergeFold_drop (c : List GraphQLScorecard) :
    ∀ (u acc : List GraphQLScorecard), c.length ≤ acc.length →
      (u.foldl (mergeStepCard c) acc).drop c.length =
        acc.drop c.length ++
          u.filter (fun x => (getAssoc (scorecardIndexMap c) x.id).isNone) := by
  intro u
  induction u with
  | nil => intro acc _; simp
  | cons x u ih =>
      intro acc hlen
      rw [List.foldl_cons, List.filter_cons]
      rcases hgx : getAssoc (scorecardIndexMap c) x.id with _ | j
      · rw [mergeStepCard_append c acc x hgx]
        rw [ih (acc ++ [x]) (by rw [List.length_append]; omega)]
        rw [List.drop_append_of_le_length hlen]
        simp [List.append_assoc]
      · rw [mergeStepCard_set c acc x j hgx]
        rcases (scorecardIndexMap_spec c x.id).2 j hgx with ⟨card, hcj, _, _⟩
        have hjlt : j < c.length := (List.get?_eq_some.mp hcj).1
        rw [ih (acc.set j x) (by rw [List.length_set]; exact hlen)]
        rw [List.drop_set, if_pos hjlt]
        simp

/-- The last scorecard of a payload list carrying a given id (last write wins in
the index-map based replacement). -/
def lastWith (u : List GraphQLScorecard) (id : String) : Option GraphQLScorecard :=
  u.foldl (fun acc x => if x.id = id then some x else acc) none

theorem lastWith_foldl_or (id : String) :
    ∀ (u : List GraphQLScorecard) (a : Option GraphQLScorecard),
      u.foldl (fun acc x => if x.id = id then some x else acc) a = (lastWith u id).or a := by
  intro u
  induction u with
  | nil => intro a; simp [lastWith]
  | cons x u ih =>
      intro a
      rw [List.foldl_cons]
      rw [ih (if x.id = id then some x else a)]
      have hR : lastWith (x :: u) id = (lastWith u id).or (if x.id = id then some x else none) := by
        unfold lastWith
        rw [List.foldl_cons]
        exact ih (if x.id = id then some x else none)
      rw [hR, Option.or_assoc]
      congr 1
      by_cases hx : x.id = id
      · simp [hx]
      · simp [hx]

theorem lastWith_snoc (u : List GraphQLScorecard) (x : GraphQLScorecard) (id : String) :
    lastWith (u ++ [x]) id = if x.id = id then some x else lastWith u id := by
  unfold lastWith
  rw [List.foldl_append]
  rw [List.foldl_cons, List.foldl_nil]

theorem lastWith_mem (u : List GraphQLScorecard) (id : String) (y : GraphQLScorecard)
    (h : lastWith u id = some y) : y ∈ u ∧ y.id = id := by
  induction u using List.reverseRecOn with
  | nil => cases h
  | append_singleton u x ih =>
      rw [lastWith_snoc] at h
      by_cases hx : x.id = id
      · rw [if_pos hx] at h
        injection h with h
        subst h
        exact ⟨List.mem_append.mpr (Or.inr (List.mem_singleton.mpr rfl)), hx⟩
      · rw [if_neg hx] at h
        rcases ih h with ⟨hmem, hid⟩
        exact ⟨List.mem_append.mpr (Or.inl hmem), hid⟩

theorem lastWith_isSome (u : List GraphQLScorecard) (id : String)
    (hex : ∃ x ∈ u, x.id = id) : ∃ y, lastWith u id = some y := by
  induction u using List.reverseRecOn with
  | nil =>
      rcases hex with ⟨x, hx, _⟩
      exact absurd hx (List.not_mem_nil x)
  | append_singleton u x ih =>
      rw [lastWith_snoc]
      by_cases hx : x.id = id
      · exact ⟨x, by rw [if_pos hx]⟩
      · rw [if_neg hx]
        refine ih ?_
        rcases hex with ⟨y, hy, hyid⟩
        rcases List.mem_append.mp hy with hy' | hy'
        · exact ⟨y, hy', hyid⟩
        · rcases List.mem_singleton.mp hy' with rfl
          exact absurd hyid hx

theorem lastWith_filter (u : List GraphQLScorecard) (id : String)
    (p : GraphQLScorecard → Bool) (hp : ∀ x ∈ u, x.id = id → p x = true) :
    lastWith (u.filter p) id = lastWith u id := by
  induction u using List.reverseRecOn with
  | nil => rfl
  | append_singleton u x ih =>
      have hrest : ∀ y ∈ u, y.id = id → p y = true :=
        fun y hy hyid => hp y (List.mem_append.mpr (Or.inl hy)) hyid
      rw [List.filter_append, lastWith_snoc]
      by_cases hpx : p x = true
      · have hfx : List.filter p [x] = [x] := by simp [List.filter_cons, hpx]
        rw [hfx, lastWith_snoc, ih hrest]
      · have hfx : List.filter p [x] = [] := by
          simp only [List.filter_cons, List.filter_nil]
          rw [if_neg hpx]
        rw [hfx, List.append_nil, ih hrest]
        by_cases hx : x.id = id
        · exact absurd (hp x (List.mem_append.mpr
            (Or.inr (List.mem_singleton.mpr rfl))) hx) hpx
        · rw [if_neg hx]

theorem mergeFold_get?_matched (c : List GraphQLScorecard) (id : String) (i : ℕ)
    (hidx : getAssoc (scorecardIndexMap c) id = some i) :
    ∀ (u acc : List GraphQLScorecard), c.length ≤ acc.length →
      (u.foldl (mergeStepCard c) acc).get? i = (lastWith u id).or (acc.get? i) := by
  have hilt : i < c.length := by
    rcases (scorecardIndexMap_spec c id).2 i hidx with ⟨card, hci, _, _⟩
    exact (List.get?_eq_some.mp hci).1
  intro u
  induction u with
  | nil => intro acc _; simp [lastWith]
  | cons x u ih =>
      intro acc hlen
      rw [List.foldl_cons]
      have hLW : lastWith (x :: u) id = (lastWith u id).or (if x.id = id then some x else none) := by
        unfold lastWith
        rw [List.foldl_cons]
        exact lastWith_foldl_or id u (if x.id = id then some x else none)
      by_cases hxid : x.id = id
      · have hgx : getAssoc (scorecardIndexMap c) x.id = some i := by rw [hxid]; exact hidx
        rw [mergeStepCard_set c acc x i hgx]
        rw [ih (acc.set i x) (by rw [List.length_set]; exact hlen)]
        rw [get?_set_self_of_lt acc i x (by omega)]
        rw [hLW, if_pos hxid, Option.or_assoc]
        rcases lastWith u id with _ | y <;> rfl
      · rw [hLW, if_neg hxid]
        simp only [Option.or_none]
        rcases hgx : getAssoc (scorecardIndexMap c) x.id with _ | j
        · rw [mergeStepCard_append c acc x hgx]
          rw [ih (acc ++ [x]) (by rw [List.length_append]; omega)]
          rw [List.get?_append (show i < acc.length by omega)]
        · have hji : j ≠ i := by
            intro h
            subst h
            rcases (scorecardIndexMap_spec c id).2 j hidx with ⟨card, hcj, hcardid, _⟩
            rcases (scorecardIndexMap_spec c x.id).2 j hgx with ⟨card', hcj', hcardid', _⟩
            rw [hcj] at hcj'
            injection hcj' with h'
            subst h'
            exact hxid (hcardid' ▸ hcardid)
          rw [mergeStepCard_set c acc x j hgx]
          rw [ih (acc.set j x) (by rw [List.length_set]; exact hlen)]
          rw [List.get?_set_ne x acc hji]

theorem mergeFold_get?_untouched (c : List GraphQLScorecard) (n : ℕ) :
    ∀ (u acc : List GraphQLScorecard), c.length ≤ acc.length →
      (∀ x ∈ u, getAssoc (scorecardIndexMap c) x.id ≠ some n) →
      (∀ x ∈ u, (getAssoc (scorecardIndexMap c) x.id).isSome = true) →
      (u.foldl (mergeStepCard c) acc).get? n = acc.get? n := by
  intro u
  induction u with
  | nil => intro acc _ _ _; rfl
  | cons x u ih =>
      intro acc hlen hnot hsome
      rw [List.foldl_cons]
      rcases hgx : getAssoc (scorecardIndexMap c) x.id with _ | j
      · have := hsome x (List.mem_cons_self x u)
        rw [hgx] at this
        cases this
      · have hjn : j ≠ n := by
          intro h
          subst h
          exact hnot x (List.mem_cons_self x u) hgx
        rw [mergeStepCard_set c acc x j hgx]
        rw [ih (acc.set j x) (by rw [List.length_set]; exact hlen)
          (fun y hy => hnot y (List.mem_cons_of_mem x hy))
          (fun y hy => hsome y (List.mem_cons_of_mem x hy))]
        rw [List.get?_set_ne x acc hjn]

/-! ## Structure of a merged scorecard list -/

theorem mergeScorecardsInto_length (c u : List GraphQLScorecard) :
    c.length ≤ (mergeScorecardsInto c u).length := by
  rw [mergeScorecardsInto_eq_foldl]
  exact mergeFold_length_le c u c

theorem mergeScorecardsInto_get?_id (c u : List GraphQLScorecard) (i : ℕ)
    (hi : i < c.length) :
    ((mergeScorecardsInto c u).get? i).map GraphQLScorecard.id =
      (c.get? i).map GraphQLScorecard.id := by
  rw [mergeScorecardsInto_eq_foldl]
  exact mergeFold_get?_id c u c (le_refl _) (fun _ _ => rfl) i hi

theorem mergeScorecardsInto_drop (c u : List GraphQLScorecard) :
    (mergeScorecardsInto c u).drop c.length =
      u.filter (fun x => (getAssoc (scorecardIndexMap c) x.id).isNone) := by
  rw [mergeScorecardsInto_eq_foldl]
  rw [mergeFold_drop c u c (le_refl _), List.drop_length, List.nil_append]

theorem mergeScorecardsInto_get?_matched (c u : List GraphQLScorecard) (id : String)
    (i : ℕ) (hidx : getAssoc (scorecardIndexMap c) id = some i) :
    (mergeScorecardsInto c u).get? i = (lastWith u id).or (c.get? i) := by
  rw [mergeScorecardsInto_eq_foldl]
  exact mergeFold_get?_matched c id i hidx u c (le_refl _)

theorem lastWith_eq_get? (l : List GraphQLScorecard) (id : String) (q : ℕ)
    (h : getAssoc (scorecardIndexMap l) id = some q) : lastWith l id = l.get? q := by
  induction l using List.reverseRecOn with
  | nil =>
      rw [show scorecardIndexMap [] = [] from rfl, getAssoc_nil] at h
      cases h
  | append_singleton l x ih =>
      rw [scorecardIndexMap_snoc, getAssoc_setAssoc] at h
      rw [lastWith_snoc]
      by_cases hid : id = x.id
      · rw [if_pos hid] at h
        injection h with h'
        subst h'
        rw [if_pos hid.symm, List.get?_concat_length]
      · rw [if_neg hid] at h
        have hqlt : q < l.length := by
          rcases (scorecardIndexMap_spec l id).2 q h with ⟨card, hcq, _, _⟩
          exact (List.get?_eq_some.mp hcq).1
        rw [if_neg (fun h' : x.id = id => hid h'.symm)]
        rw [List.get?_append hqlt]
        exact ih h

/-- Every id present in the payload survives the merge: its last payload
occurrence sits in the merged list at the position the merged index map reports. -/
theorem merge_key (c u : List GraphQLScorecard) (id : String)
    (hex : ∃ x ∈ u, x.id = id) :
    ∃ p y, getAssoc (scorecardIndexMap (mergeScorecardsInto c u)) id = some p ∧
      lastWith u id = some y ∧ (mergeScorecardsInto c u).get? p = some y := by
  have hMlen : c.length ≤ (mergeScorecardsInto c u).length := mergeScorecardsInto_length c u
  have hdropval : ∀ j card', c.length ≤ j →
      (mergeScorecardsInto c u).get? j = some card' →
      card' ∈ u.filter (fun x => (getAssoc (scorecardIndexMap c) x.id).isNone) := by
    intro j card' hj hjc
    have hd : ((mergeScorecardsInto c u).drop c.length).get? (j - c.length) =
        (mergeScorecardsInto c u).get? j := by
      rw [List.get?_drop]
      congr 1
      omega
    rw [mergeScorecardsInto_drop] at hd
    rw [hjc] at hd
    exact get?_mem_of_eq _ _ _ hd
  rcases hidx : getAssoc (scorecardIndexMap c) id with _ | i
  · -- the id is new: it lives in the appended (filtered) region
    have hpredall : ∀ x ∈ u, x.id = id →
        ((getAssoc (scorecardIndexMap c) x.id).isNone : Bool) = true := by
      intro x _ hxid
      rw [hxid, hidx]
      rfl
    rcases hex with ⟨x0, hx0, hx0id⟩
    have hx0f : x0 ∈ u.filter (fun x => (getAssoc (scorecardIndexMap c) x.id).isNone) :=
      List.mem_filter.mpr ⟨hx0, hpredall x0 hx0 hx0id⟩
    rcases scorecardIndexMap_isSome _ x0 hx0f with ⟨q, hq⟩
    rw [hx0id] at hq
    rcases (scorecardIndexMap_spec _ id).2 q hq with ⟨card, hfq, hcardid, hflast⟩
    have hMq : (mergeScorecardsInto c u).get? (c.length + q) = some card := by
      have hd := List.get?_drop (mergeScorecardsInto c u) c.length q
      rw [mergeScorecardsInto_drop] at hd
      rw [← hd, hfq]
    have hlw : lastWith u id = some card := by
      rw [← lastWith_filter u id _ hpredall]
      rw [lastWith_eq_get? _ id q hq, hfq]
    refine ⟨c.length + q, card, ?_, hlw, hMq⟩
    refine scorecardIndexMap_eq_of _ id (c.length + q) card hMq hcardid ?_
    intro j card' hj hjc
    have hmemf := hdropval j card' (by omega) hjc
    have hd : ((mergeScorecardsInto c u).drop c.length).get? (j - c.length) =
        (mergeScorecardsInto c u).get? j := by
      rw [List.get?_drop]
      congr 1
      omega
    rw [mergeScorecardsInto_drop, hjc] at hd
    exact hflast (j - c.length) card' (by omega) hd
  · -- the id is matched: the last payload occurrence replaces position i
    rcases lastWith_isSome u id hex with ⟨y, hy⟩
    have hyprop := lastWith_mem u id y hy
    have hval : (mergeScorecardsInto c u).get? i = some y := by
      rw [mergeScorecardsInto_get?_matched c u id i hidx, hy]
      rfl
    refine ⟨i, y, ?_, hy, hval⟩
    refine scorecardIndexMap_eq_of _ id i y hval hyprop.2 ?_
    intro j card' hj hjc
    by_cases hjlt : j < c.length
    · have hidj := mergeScorecardsInto_get?_id c u j hjlt
      rw [hjc] at hidj
      rcases hcj : c.get? j with _ | card''
      · rw [hcj] at hidj
        cases hidj
      · rw [hcj] at hidj
        injection hidj with hid'
        rcases (scorecardIndexMap_spec c id).2 i hidx with ⟨cardi, _, _, hlasti⟩
        intro hcontra
        exact hlasti j card'' hj hcj (by rw [← hid', hcontra])
    · have hmemf := hdropval j card' (by omega) hjc
      have hpred := (List.mem_filter.mp hmemf).2
      intro hcontra
      rw [hcontra, hidx] at hpred
      cases hpred

/-- Merging into an empty cache appends the payload verbatim. -/
theorem mergeScorecardsInto_nil_left (u : List GraphQLScorecard) :
    mergeScorecardsInto [] u = u := by
  have h : ∀ (u acc : List GraphQLScorecard), u.foldl (mergeStepCard []) acc = acc ++ u := by
    intro u
    induction u with
    | nil => intro acc; simp
    | cons x u ih =>
        intro acc
        rw [List.foldl_cons]
        rw [mergeStepCard_append [] acc x (by rw [show scorecardIndexMap [] = [] from rfl]; rfl)]
        rw [ih (acc ++ [x])]
        simp
  rw [mergeScorecardsInto_eq_foldl, h u [], List.nil_append]

/-- **Scorecard-level idempotence**: replaying the same payload over an already
merged list changes nothing. -/
theorem mergeScorecardsInto_idem (c u : List GraphQLScorecard) :
    mergeScorecardsInto (mergeScorecardsInto c u) u = mergeScorecardsInto c u := by
  have hsome : ∀ x ∈ u,
      ((getAssoc (scorecardIndexMap (mergeScorecardsInto c u)) x.id).isSome : Bool) = true := by
    intro x hx
    rcases merge_key c u x.id ⟨x, hx, rfl⟩ with ⟨p, y, hp, _, _⟩
    rw [hp]
    rfl
  apply List.ext_get?
  intro n
  rw [mergeScorecardsInto_eq_foldl (mergeScorecardsInto c u) u]
  by_cases hcase : ∃ x ∈ u,
      getAssoc (scorecardIndexMap (mergeScorecardsInto c u)) x.id = some n
  · rcases hcase with ⟨x, hx, hxn⟩
    rcases merge_key c u x.id ⟨x, hx, rfl⟩ with ⟨p, y, hp, hlw, hval⟩
    have hpn : p = n := by
      rw [hp] at hxn
      injection hxn
    subst hpn
    rw [mergeFold_get?_matched (mergeScorecardsInto c u) x.id p hp u
      (mergeScorecardsInto c u) (le_refl _)]
    rw [hlw, hval]
    rfl
  · push_neg at hcase
    exact mergeFold_get?_untouched (mergeScorecardsInto c u) n u
      (mergeScorecardsInto c u) (le_refl _) hcase hsome

/-- Merging a payload into itself is the identity. -/
theorem mergeScorecardsInto_self (u : List GraphQLScorecard) :
    mergeScorecardsInto u u = u := by
  have h := mergeScorecardsInto_idem [] u
  rw [mergeScorecardsInto_nil_left] at h
  exact h

/-! ## The stage map -/

/-- Well-formedness of the stage map: unique keys, and each stored stage's id is
its key. -/
def StageMapWF (m : List (String × GraphQLStage)) : Prop :=
  (m.map Prod.fst).Nodup ∧ ∀ p ∈ m, p.2.id = p.1

theorem setAssoc_keys_of_any {α : Type} (m : List (String × α)) (k : String) (v : α)
    (hany : (m.any fun p => p.1 = k) = true) :
    (setAssoc m k v).map Prod.fst = m.map Prod.fst := by
  unfold setAssoc
  rw [if_pos hany, List.map_map]
  apply List.map_congr_left
  intro p _
  by_cases hp : p.1 = k
  · simp [hp]
  · simp [hp]

theorem getAssoc_any_of_some {α : Type} (m : List (String × α)) (k : String) (v : α)
    (h : getAssoc m k = some v) : (m.any fun p => p.1 = k) = true := by
  unfold getAssoc at h
  rcases Option.map_eq_some'.mp h with ⟨p, hfind, _⟩
  have hp := List.find?_some hfind
  exact List.any_eq_true.mpr ⟨p, List.mem_of_find?_eq_some hfind, hp⟩

theorem StageMapWF_setAssoc (m : List (String × GraphQLStage)) (k : String)
    (v : GraphQLStage) (hwf : StageMapWF m) (hv : v.id = k) :
    StageMapWF (setAssoc m k v) := by
  constructor
  · by_cases hany : (m.any fun p => p.1 = k) = true
    · rw [setAssoc_keys_of_any m k v hany]
      exact hwf.1
    · unfold setAssoc
      rw [if_neg hany, List.map_append]
      rw [List.nodup_append]
      refine ⟨hwf.1, List.nodup_singleton k, ?_⟩
      intro a ha hak
      rcases List.mem_singleton.mp hak with rfl
      rcases List.mem_map.mp ha with ⟨p, hp, hpk⟩
      exact hany (List.any_eq_true.mpr ⟨p, hp, decide_eq_true_eq.mpr hpk⟩)
  · intro p hp
    rcases mem_setAssoc m k v p hp with rfl | hp'
    · exact hv
    · exact hwf.2 p hp'

theorem StageMapWF_buildStageMap (stages : List GraphQLStage) :
    StageMapWF (buildStageMap stages) := by
  unfold buildStageMap
  suffices h : ∀ (L : List GraphQLStage) (m), StageMapWF m →
      StageMapWF (L.foldl (fun m s => setAssoc m s.id s) m) by
    exact h stages [] ⟨List.nodup_nil, fun p hp => absurd hp (List.not_mem_nil p)⟩
  intro L
  induction L with
  | nil => intro m hm; exact hm
  | cons s L ih =>
      intro m hm
      exact ih _ (StageMapWF_setAssoc m s.id s hm rfl)

theorem getAssoc_value_id (m : List (String × GraphQLStage)) (hwf : StageMapWF m)
    (k : String) (cs : GraphQLStage) (h : getAssoc m k = some cs) : cs.id = k :=
  hwf.2 (k, cs) (getAssoc_mem m k cs h)

/-- The stage value `mergeStageStep` stores at the payload stage's key. -/
def mergeStageValue (o : Option GraphQLStage) (us : GraphQLStage) : GraphQLStage :=
  match o with
  | none => us
  | some cs => { cs with scorecards := mergeScorecardsInto cs.scorecards us.scorecards }

theorem mergeStageStep_eq (m : List (String × GraphQLStage)) (us : GraphQLStage) :
    mergeStageStep m us = setAssoc m us.id (mergeStageValue (getAssoc m us.id) us) := by
  unfold mergeStageStep mergeStageValue
  rcases getAssoc m us.id with _ | cs
  · rfl
  · rfl

theorem mergeStageValue_id (m : List (String × GraphQLStage)) (hwf : StageMapWF m)
    (us : GraphQLStage) : (mergeStageValue (getAssoc m us.id) us).id = us.id := by
  unfold mergeStageValue
  rcases h : getAssoc m us.id with _ | cs
  · rfl
  · exact getAssoc_value_id m hwf us.id cs h

theorem StageMapWF_mergeStageStep (m : List (String × GraphQLStage)) (us : GraphQLStage)
    (hwf : StageMapWF m) : StageMapWF (mergeStageStep m us) := by
  rw [mergeStageStep_eq]
  exact StageMapWF_setAssoc m us.id _ hwf (mergeStageValue_id m hwf us)

theorem StageMapWF_fold (L : List GraphQLStage) :
    ∀ (m : List (String × GraphQLStage)), StageMapWF m →
      StageMapWF (L.foldl mergeStageStep m) := by
  induction L with
  | nil => intro m hm; exact hm
  | cons us L ih => intro m hm; exact ih _ (StageMapWF_mergeStageStep m us hm)

theorem getAssoc_mergeStageStep (m : List (String × GraphQLStage)) (us : GraphQLStage)
    (k : String) :
    getAssoc (mergeStageStep m us) k =
      if k = us.id then some (mergeStageValue (getAssoc m us.id) us) else getAssoc m k := by
  rw [mergeStageStep_eq, getAssoc_setAssoc]

theorem getAssoc_fold_preserve (L : List GraphQLStage) :
    ∀ (m : List (String × GraphQLStage)) (k : String), (∀ us ∈ L, us.id ≠ k) →
      getAssoc (L.foldl mergeStageStep m) k = getAssoc m k := by
  induction L with
  | nil => intro m k _; rfl
  | cons us L ih =>
      intro m k hk
      rw [List.foldl_cons]
      rw [ih _ k (fun t ht => hk t (List.mem_cons_of_mem us ht))]
      rw [getAssoc_mergeStageStep]
      rw [if_neg (fun h : k = us.id => hk us (List.mem_cons_self us L) h.symm)]

theorem getAssoc_fold_key (L : List GraphQLStage)
    (hnodup : (L.map GraphQLStage.id).Nodup) :
    ∀ us ∈ L, ∀ (m : List (String × GraphQLStage)),
      getAssoc (L.foldl mergeStageStep m) us.id =
        some (mergeStageValue (getAssoc m us.id) us) := by
  induction L with
  | nil => intro us hus; exact absurd hus (List.not_mem_nil us)
  | cons us' L ih =>
      rw [List.map_cons, List.nodup_cons] at hnodup
      intro us hus m
      rw [List.foldl_cons]
      rcases List.mem_cons.mp hus with rfl | hus'
      · rw [getAssoc_fold_preserve L _ us.id ?hne]
        case hne =>
          intro t ht h
          exact hnodup.1 (h ▸ List.mem_map.mpr ⟨t, ht, rfl⟩)
        rw [getAssoc_mergeStageStep, if_pos rfl]
      · rw [ih hnodup.2 us hus' (mergeStageStep m us')]
        rw [getAssoc_mergeStageStep]
        rw [if_neg ?hne2]
        case hne2 =>
          intro h
          exact hnodup.1 (h ▸ List.mem_map.mpr ⟨us, hus', rfl⟩)

theorem setAssoc_self_of_get {α : Type} (m : List (String × α)) (k : String) (v : α)
    (hnodup : (m.map Prod.fst).Nodup) (h : getAssoc m k = some v) :
    setAssoc m k v = m := by
  unfold setAssoc
  rw [if_pos (getAssoc_any_of_some m k v h)]
  induction m with
  | nil => rfl
  | cons p rest ih =>
      rw [List.map_cons, List.nodup_cons] at hnodup
      rw [getAssoc_cons] at h
      rw [List.map_cons]
      by_cases hpk : p.1 = k
      · rw [if_pos hpk] at h ⊢
        injection h with h'
        have hhead : (k, v) = p := by
          rcases p with ⟨a, b⟩
          simp only at hpk h'
          rw [hpk, h']
        have htail : rest.map (fun p => if p.1 = k then (k, v) else p) = rest := by
          have hq : ∀ q ∈ rest, (if q.1 = k then (k, v) else q) = q := by
            intro q hq
            rw [if_neg ?hqk]
            case hqk =>
              intro hqk
              rw [← hpk] at hqk
              exact hnodup.1 (hqk ▸ List.mem_map.mpr ⟨q, hq, rfl⟩)
          rw [List.map_congr_left hq]
          exact List.map_id rest
        rw [htail, hhead]
      · rw [if_neg hpk] at h ⊢
        rw [ih hnodup.2 h]

theorem fold_mergeStageStep_id (L : List GraphQLStage)
    (m : List (String × GraphQLStage)) (hnodup : (m.map Prod.fst).Nodup)
    (habsorb : ∀ us ∈ L, ∃ v, getAssoc m us.id = some v ∧
      mergeScorecardsInto v.scorecards us.scorecards = v.scorecards) :
    L.foldl mergeStageStep m = m := by
  induction L with
  | nil => rfl
  | cons us L ih =>
      rcases habsorb us (List.mem_cons_self us L) with ⟨v, hv, habs⟩
      have hstep : mergeStageStep m us = m := by
        rw [mergeStageStep_eq, hv]
        have hval : mergeStageValue (some v) us = v := by
          show { v with scorecards := mergeScorecardsInto v.scorecards us.scorecards } = v
          rw [habs]
        rw [hval]
        exact setAssoc_self_of_get m us.id v hnodup hv
      rw [List.foldl_cons, hstep]
      exact ih fun t ht => habsorb t (List.mem_cons_of_mem us ht)

theorem buildStageMap_snoc (stages : List GraphQLStage) (s : GraphQLStage) :
    buildStageMap (stages ++ [s]) = setAssoc (buildStageMap stages) s.id s := by
  unfold buildStageMap
  rw [List.foldl_append]
  rfl

theorem buildStageMap_map_snd (m : List (String × GraphQLStage)) (hwf : StageMapWF m) :
    buildStageMap (m.map Prod.snd) = m := by
  induction m using List.reverseRecOn with
  | nil => rfl
  | append_singleton m p ih =>
      have hn := hwf.1
      rw [List.map_append, List.nodup_append] at hn
      have hwfm : StageMapWF m :=
        ⟨hn.1, fun q hq => hwf.2 q (List.mem_append.mpr (Or.inl hq))⟩
      have hpid : p.2.id = p.1 :=
        hwf.2 p (List.mem_append.mpr (Or.inr (List.mem_singleton.mpr rfl)))
      have hknotin : p.1 ∉ m.map Prod.fst := by
        intro hcontra
        exact hn.2.2 hcontra (by simp)
      rw [List.map_append, List.map_singleton, buildStageMap_snoc, ih hwfm, hpid]
      unfold setAssoc
      rw [if_neg ?hany]
      case hany =>
        intro hcontra
        rcases List.any_eq_true.mp hcontra with ⟨q, hq, hqk⟩
        exact hknotin (List.mem_map.mpr ⟨q, hq, decide_eq_true_eq.mp hqk⟩)

/-! ## C3: merge idempotence -/

/-- **C3.** Merging an identical incremental payload twice yields the same
snapshot as merging it once: replayed replacements rewrite each (stage id,
scorecard id) slot with the value it already holds, and no appends happen since
every payload id is already present.  The payload's stages carry distinct ids
(as in any GraphQL event response). -/
theorem mergeUpdatedScorecards_idem (cachedEvent updatedEvent : GraphQLEvent)
    (hnodup : (updatedEvent.stages.map GraphQLStage.id).Nodup) :
    mergeUpdatedScorecards (mergeUpdatedScorecards cachedEvent updatedEvent) updatedEvent =
      mergeUpdatedScorecards cachedEvent updatedEvent := by
  have hwf0 : StageMapWF (buildStageMap cachedEvent.stages) :=
    StageMapWF_buildStageMap cachedEvent.stages
  have hwfF : StageMapWF
      (updatedEvent.stages.foldl mergeStageStep (buildStageMap cachedEvent.stages)) :=
    StageMapWF_fold updatedEvent.stages _ hwf0
  have hrebuild : buildStageMap
      ((updatedEvent.stages.foldl mergeStageStep (buildStageMap cachedEvent.stages)).map
        Prod.snd) =
      updatedEvent.stages.foldl mergeStageStep (buildStageMap cachedEvent.stages) :=
    buildStageMap_map_snd _ hwfF
  have habsorb : ∀ us ∈ updatedEvent.stages, ∃ v,
      getAssoc (updatedEvent.stages.foldl mergeStageStep
        (buildStageMap cachedEvent.stages)) us.id = some v ∧
      mergeScorecardsInto v.scorecards us.scorecards = v.scorecards := by
    intro us hus
    refine ⟨mergeStageValue (getAssoc (buildStageMap cachedEvent.stages) us.id) us,
      getAssoc_fold_key updatedEvent.stages hnodup us hus _, ?_⟩
    rcases hg : getAssoc (buildStageMap cachedEvent.stages) us.id with _ | cs
    · show mergeScorecardsInto us.scorecards us.scorecards = us.scorecards
      exact mergeScorecardsInto_self us.scorecards
    · show mergeScorecardsInto (mergeScorecardsInto cs.scorecards us.scorecards)
        us.scorecards = mergeScorecardsInto cs.scorecards us.scorecards
      exact mergeScorecardsInto_idem cs.scorecards us.scorecards
  have hfoldid : updatedEvent.stages.foldl mergeStageStep
      (updatedEvent.stages.foldl mergeStageStep (buildStageMap cachedEvent.stages)) =
      updatedEvent.stages.foldl mergeStageStep (buildStageMap cachedEvent.stages) :=
    fold_mergeStageStep_id updatedEvent.stages _ hwfF.1 habsorb
  show ({ mergeUpdatedScorecards cachedEvent updatedEvent with
    stages := (updatedEvent.stages.foldl mergeStageStep
      (buildStageMap (mergeUpdatedScorecards cachedEvent updatedEvent).stages)).map
        Prod.snd } : GraphQLEvent) = mergeUpdatedScorecards cachedEvent updatedEvent
  have hstages : (mergeUpdatedScorecards cachedEvent updatedEvent).stages =
      (updatedEvent.stages.foldl mergeStageStep (buildStageMap cachedEvent.stages)).map
        Prod.snd := rfl
  rw [hstages, hrebuild, hfoldid]
  rfl

def witnessSc (id upd : String) (pts : ℚ) : GraphQLScorecard :=
  { id := id, time := 1, points := pts, hitfactor := 1, ascore := 1, bscore := 0,
    cscore := 0, dscore := 0, hscore := 0, updated := some upd,
    competitor := { id := "c-" ++ id, first_name := "F", last_name := "L", number := id,
                    handgun_div := none, handgun_pf := none,
                    get_handgun_div_display := none, get_handgun_pf_display := none,
                    category := none } }

def witnessCachedEvent : GraphQLEvent :=
  { id := "e", name := "E", uses_stages := true,
    stages := [{ id := "st1", number := 1, name := "S1",
                 scorecards := [witnessSc "a" "2024-01-01" 10,
                                witnessSc "b" "2024-01-02" 20] }] }

def witnessPayloadEvent : GraphQLEvent :=
  { id := "e", name := "E", uses_stages := true,
    stages := [{ id := "st1", number := 1, name := "S1",
                 scorecards := [witnessSc "b" "2024-02-01" 21,
                                witnessSc "c" "2024-02-02" 30] },
               { id := "st2", number := 2, name := "S2",
                 scorecards := [witnessSc "d" "2024-02-03" 40] }] }

/-- Witness for C3: a payload replacing one scorecard, appending another and
adding a new stage merges idempotently. -/
theorem mergeUpdatedScorecards_idem_witness :
    mergeUpdatedScorecards (mergeUpdatedScorecards witnessCachedEvent witnessPayloadEvent)
      witnessPayloadEvent =
      mergeUpdatedScorecards witnessCachedEvent witnessPayloadEvent :=
  mergeUpdatedScorecards_idem witnessCachedEvent witnessPayloadEvent (by decide)

/-! ## The latest-update timestamp scan -/

/-- One step of the `findLatestUpdateTimestamp` scan. -/
def updatedStep (latest : String) (sc : GraphQLScorecard) : String :=
  match sc.updated with
  | some u => if u ≠ "" ∧ latest.data < u.data then u else latest
  | none => latest

theorem findLatest_eq_foldl (event : GraphQLEvent) :
    findLatestUpdateTimestamp event =
      event.stages.foldl
        (fun latest stage => stage.scorecards.foldl updatedStep latest) epochFloor := rfl

theorem updatedStep_init_le (a : String) (sc : GraphQLScorecard) :
    a.data ≤ (updatedStep a sc).data := by
  rcases hu : sc.updated with _ | u
  · simp [updatedStep, hu]
  · simp only [updatedStep, hu]
    by_cases h : u ≠ "" ∧ a.data < u.data
    · rw [if_pos h]
      exact le_of_lt h.2
    · rw [if_neg h]

theorem foldl_updatedStep_init_le (l : List GraphQLScorecard) :
    ∀ a : String, a.data ≤ (l.foldl updatedStep a).data := by
  induction l with
  | nil => intro a; exact le_refl _
  | cons sc l ih =>
      intro a
      rw [List.foldl_cons]
      exact le_trans (updatedStep_init_le a sc) (ih (updatedStep a sc))

theorem foldl_outer_init_le (stages : List GraphQLStage) :
    ∀ a : String,
      a.data ≤ (stages.foldl
        (fun latest st => st.scorecards.foldl updatedStep latest) a).data := by
  induction stages with
  | nil => intro a; exact le_refl _
  | cons st stages ih =>
      intro a
      rw [List.foldl_cons]
      exact le_trans (foldl_updatedStep_init_le st.scorecards a) (ih _)

theorem foldl_updatedStep_ge_member (l : List GraphQLScorecard) :
    ∀ (a : String) (sc : GraphQLScorecard), sc ∈ l → ∀ v, sc.updated = some v → v ≠ "" →
      v.data ≤ (l.foldl updatedStep a).data := by
  induction l with
  | nil => intro a sc hsc; exact absurd hsc (List.not_mem_nil sc)
  | cons x l ih =>
      intro a sc hsc v hv hne
      rw [List.foldl_cons]
      rcases List.mem_cons.mp hsc with rfl | hsc'
      · refine le_trans ?_ (foldl_updatedStep_init_le l (updatedStep a sc))
        simp only [updatedStep, hv]
        by_cases h : v ≠ "" ∧ a.data < v.data
        · rw [if_pos h]
        · rw [if_neg h]
          rcases not_and_or.mp h with h' | h'
          · exact absurd hne h'
          · exact not_lt.mp h'
      · exact ih (updatedStep a x) sc hsc' v hv hne

theorem findLatest_ge_member (event : GraphQLEvent) (st : GraphQLStage)
    (hst : st ∈ event.stages) (sc : GraphQLScorecard) (hsc : sc ∈ st.scorecards)
    (v : String) (hv : sc.updated = some v) (hne : v ≠ "") :
    v.data ≤ (findLatestUpdateTimestamp event).data := by
  rw [findLatest_eq_foldl]
  have hgen : ∀ (L : List GraphQLStage) (a : String), st ∈ L →
      v.data ≤ (L.foldl (fun latest s => s.scorecards.foldl updatedStep latest) a).data := by
    intro L
    induction L with
    | nil => intro a h; exact absurd h (List.not_mem_nil st)
    | cons s L ih =>
        intro a hmem
        rw [List.foldl_cons]
        rcases List.mem_cons.mp hmem with rfl | hmem'
        · exact le_trans (foldl_updatedStep_ge_member st.scorecards a sc hsc v hv hne)
            (foldl_outer_init_le L _)
        · exact ih _ hmem'
  exact hgen event.stages epochFloor hst

theorem foldl_updatedStep_origin (l : List GraphQLScorecard) :
    ∀ a : String, l.foldl updatedStep a = a ∨
      ∃ sc ∈ l, ∃ v, sc.updated = some v ∧ v ≠ "" ∧ l.foldl updatedStep a = v := by
  induction l with
  | nil => intro a; exact Or.inl rfl
  | cons x l ih =>
      intro a
      rw [List.foldl_cons]
      rcases ih (updatedStep a x) with heq | ⟨sc, hsc, v, hv, hne, hvv⟩
      · rw [heq]
        rcases hx : x.updated with _ | u
        · simp [updatedStep, hx]
        · simp only [updatedStep, hx]
          by_cases h : u ≠ "" ∧ a.data < u.data
          · rw [if_pos h]
            exact Or.inr ⟨x, List.mem_cons_self x l, u, hx, h.1, rfl⟩
          · rw [if_neg h]
            exact Or.inl rfl
      · exact Or.inr ⟨sc, List.mem_cons_of_mem x hsc, v, hv, hne, hvv⟩

theorem findLatest_origin (event : GraphQLEvent) :
    findLatestUpdateTimestamp event = epochFloor ∨
      ∃ st ∈ event.stages, ∃ sc ∈ st.scorecards, ∃ v, sc.updated = some v ∧ v ≠ "" ∧
        findLatestUpdateTimestamp event = v := by
  rw [findLatest_eq_foldl]
  have hgen : ∀ (L : List GraphQLStage) (a : String),
      L.foldl (fun latest s => s.scorecards.foldl updatedStep latest) a = a ∨
        ∃ st ∈ L, ∃ sc ∈ st.scorecards, ∃ v, sc.updated = some v ∧ v ≠ "" ∧
          L.foldl (fun latest s => s.scorecards.foldl updatedStep latest) a = v := by
    intro L
    induction L with
    | nil => intro a; exact Or.inl rfl
    | cons s L ih =>
        intro a
        rw [List.foldl_cons]
        rcases ih (s.scorecards.foldl updatedStep a) with heq | hex
        · rw [heq]
          rcases foldl_updatedStep_origin s.scorecards a with heq' | ⟨sc, hsc, v, hv, hne, hvv⟩
          · exact Or.inl heq'
          · exact Or.inr ⟨s, List.mem_cons_self s L, sc, hsc, v, hv, hne, hvv⟩
        · rcases hex with ⟨st, hst, sc, hsc, v, hv, hne, hvv⟩
          exact Or.inr ⟨st, List.mem_cons_of_mem s hst, sc, hsc, v, hv, hne, hvv⟩
  exact hgen event.stages epochFloor

/-- Some scorecard of a nonempty payload stage survives into the merged event. -/
theorem merge_contains_payload_card (cachedEvent ev : GraphQLEvent)
    (hnodup : (ev.stages.map GraphQLStage.id).Nodup)
    (us : GraphQLStage) (hus : us ∈ ev.stages) (hne : us.scorecards ≠ []) :
    ∃ st ∈ (mergeUpdatedScorecards cachedEvent ev).stages, ∃ sc ∈ st.scorecards,
      sc ∈ us.scorecards := by
  have hkey := getAssoc_fold_key ev.stages hnodup us hus (buildStageMap cachedEvent.stages)
  have hmemF : (us.id, mergeStageValue
      (getAssoc (buildStageMap cachedEvent.stages) us.id) us) ∈
      ev.stages.foldl mergeStageStep (buildStageMap cachedEvent.stages) :=
    getAssoc_mem _ _ _ hkey
  have hstmem : mergeStageValue (getAssoc (buildStageMap cachedEvent.stages) us.id) us ∈
      (mergeUpdatedScorecards cachedEvent ev).stages := by
    show _ ∈ (ev.stages.foldl mergeStageStep (buildStageMap cachedEvent.stages)).map Prod.snd
    exact List.mem_map.mpr ⟨_, hmemF, rfl⟩
  refine ⟨_, hstmem, ?_⟩
  rcases List.exists_mem_of_ne_nil us.scorecards hne with ⟨x0, hx0mem⟩
  rcases hg : getAssoc (buildStageMap cachedEvent.stages) us.id with _ | cs
  · refine ⟨x0, ?_, hx0mem⟩
    show x0 ∈ (mergeStageValue none us).scorecards
    exact hx0mem
  · rcases merge_key cs.scorecards us.scorecards x0.id ⟨x0, hx0mem, rfl⟩ with
      ⟨p, y, _, hlw, hval⟩
    have hymem := lastWith_mem us.scorecards x0.id y hlw
    refine ⟨y, ?_, hymem.1⟩
    show y ∈ (mergeStageValue (some cs) us).scorecards
    show y ∈ mergeScorecardsInto cs.scorecards us.scorecards
    exact get?_mem_of_eq _ p y hval

/-! ## C4: the merged latest-update timestamp -/

/-- **C4.** On a fresh entry whose incremental fetch returns a nonempty payload of
records updated strictly after the stored watermark (the upstream incremental
contract), the merge path stores a new entry whose tracked `lastUpdated` is the
maximum truthy scorecard `updated` value over the merged snapshot (an upper bound
attained by a member, or the 1970 floor), and is strictly - in particular
non-strictly - above the pre-merge tracked value. -/
theorem merge_latest_timestamp (maxAgeMs evictionAgeMs : Int) (e : GraphQLCacheEntry)
    (now : Int) (ev : GraphQLEvent) (fullOutcome : FetchOutcome) (division : Option String)
    (hfresh : now - e.fetchedAt < maxAgeMs)
    (hupd : hasUpdates ev = true)
    (hnodup : (ev.stages.map GraphQLStage.id).Nodup)
    (hafter : ∀ st ∈ ev.stages, ∀ sc ∈ st.scorecards, ∃ v, sc.updated = some v ∧
      v ≠ "" ∧ e.lastUpdated.data < v.data) :
    ∃ e', (fetchLiveScoresWithCache maxAgeMs evictionAgeMs (some e) now
        (.success (some ev)) fullOutcome division).newState = some e' ∧
      e'.event = mergeUpdatedScorecards e.event ev ∧
      e'.lastUpdated = findLatestUpdateTimestamp (mergeUpdatedScorecards e.event ev) ∧
      e.lastUpdated.data < e'.lastUpdated.data ∧
      (∀ st ∈ e'.event.stages, ∀ sc ∈ st.scorecards, ∀ v, sc.updated = some v → v ≠ "" →
        v.data ≤ e'.lastUpdated.data) ∧
      (e'.lastUpdated = epochFloor ∨ ∃ st ∈ e'.event.stages, ∃ sc ∈ st.scorecards,
        ∃ v, sc.updated = some v ∧ v ≠ "" ∧ e'.lastUpdated = v) := by
  have hstate : (fetchLiveScoresWithCache maxAgeMs evictionAgeMs (some e) now
      (.success (some ev)) fullOutcome division).newState =
      some { event := mergeUpdatedScorecards e.event ev,
             lastUpdated := findLatestUpdateTimestamp (mergeUpdatedScorecards e.event ev),
             fetchedAt := now, lastAccessedAt := now } := by
    simp only [fetchLiveScoresWithCache]
    rw [if_pos hfresh]
    simp only [hupd, if_true]
  refine ⟨_, hstate, rfl, rfl, ?_, ?_, ?_⟩
  · -- strict increase: some strictly-newer payload scorecard survives the merge
    rcases List.any_eq_true.mp hupd with ⟨us, hus, huslen⟩
    have husne : us.scorecards ≠ [] := by
      intro h
      rw [h] at huslen
      simp at huslen
    rcases merge_contains_payload_card e.event ev hnodup us hus husne with
      ⟨st, hst, sc, hsc, hscu⟩
    rcases hafter us hus sc hscu with ⟨v, hv, hne, hlt⟩
    exact lt_of_lt_of_le hlt
      (findLatest_ge_member (mergeUpdatedScorecards e.event ev) st hst sc hsc v hv hne)
  · intro st hst sc hsc v hv hne
    exact findLatest_ge_member (mergeUpdatedScorecards e.event ev) st hst sc hsc v hv hne
  · rcases findLatest_origin (mergeUpdatedScorecards e.event ev) with h | h
    · exact Or.inl h
    · rcases h with ⟨st, hst, sc, hsc, v, hv, hne, hvv⟩
      exact Or.inr ⟨st, hst, sc, hsc, v, hv, hne, hvv⟩

def witnessEntry4 : GraphQLCacheEntry :=
  { event := witnessCachedEvent, lastUpdated := "2024-01-02",
    fetchedAt := 0, lastAccessedAt := 90 }

/-- Witness for C4: merging a payload with `updated` values `2024-02-01/02/03`
over a watermark of `2024-01-02` stores `2024-02-03`, strictly newer. -/
theorem merge_latest_timestamp_witness :
    ((fetchLiveScoresWithCache 1000 1000 (some witnessEntry4) 100
        (.success (some witnessPayloadEvent)) .failure none).newState.map
      GraphQLCacheEntry.lastUpdated) = some "2024-02-03" ∧
    "2024-01-02".data < "2024-02-03".data := by
  rcases merge_latest_timestamp 1000 1000 witnessEntry4 100 witnessPayloadEvent
    .failure none (by decide) rfl (by decide) (by decide) with
    ⟨e', hstate, _, hlatest, _, _, _⟩
  refine ⟨?_, by decide⟩
  rw [hstate, Option.map_some', hlatest]
  decide

/-! ## C1: behaviour on a failed incremental fetch -/

/-- Counterexample to C1 as stated: with a fresh cache entry and a failing
incremental fetch, the call does *not* log and serve the cached snapshot
unchanged - it falls through to a full fetch.  Here the full fetch succeeds with
a different event: the returned stages are the full-fetch transformation (not the
cached one), and the stored entry's event data is replaced. -/
theorem incremental_failure_not_stale_serve_cex :
    (fetchLiveScoresWithCache 1000 1000 (some witnessEntry4) 100 .failure
        (.success (some witnessPayloadEvent)) none).result =
      Except.ok (transformStages witnessPayloadEvent.stages none) ∧
    (transformStages witnessPayloadEvent.stages none).length = 2 ∧
    (transformStages witnessEntry4.event.stages none).length = 1 ∧
    ((fetchLiveScoresWithCache 1000 1000 (some witnessEntry4) 100 .failure
        (.success (some witnessPayloadEvent)) none).newState.map
      GraphQLCacheEntry.event) = some witnessPayloadEvent ∧
    witnessPayloadEvent ≠ witnessEntry4.event := by
  refine ⟨rfl, rfl, rfl, rfl, by decide⟩

/-- **C1 (amended).** For a fresh Sync Cache entry, a failed incremental fetch
is logged and the call *falls back to a full fetch*: on full-fetch success the
returned snapshot and the stored entry come from the full fetch (replacing the
cached data); on full-fetch failure the error propagates and the entry keeps its
old data (only the last-access time is bumped, when the entry survived the idle
sweep); a `null` full-fetch event yields a not-found error. -/
theorem incremental_failure_full_fetch (maxAgeMs evictionAgeMs : Int)
    (e : GraphQLCacheEntry) (now : Int) (fullOutcome : FetchOutcome)
    (division : Option String) (hfresh : now - e.fetchedAt < maxAgeMs) :
    (∀ ev, fullOutcome = .success (some ev) →
      (fetchLiveScoresWithCache maxAgeMs evictionAgeMs (some e) now .failure
          fullOutcome division).result = .ok (transformStages ev.stages division) ∧
      (fetchLiveScoresWithCache maxAgeMs evictionAgeMs (some e) now .failure
          fullOutcome division).newState =
        some { event := ev, lastUpdated := findLatestUpdateTimestamp ev,
               fetchedAt := now, lastAccessedAt := now }) ∧
    (fullOutcome = .failure →
      (fetchLiveScoresWithCache maxAgeMs evictionAgeMs (some e) now .failure
          fullOutcome division).result = .error "GraphQL request failed" ∧
      (fetchLiveScoresWithCache maxAgeMs evictionAgeMs (some e) now .failure
          fullOutcome division).newState =
        (if e.lastAccessedAt < now - evictionAgeMs then none
         else some { e with lastAccessedAt := now })) ∧
    (fullOutcome = .success none →
      (fetchLiveScoresWithCache maxAgeMs evictionAgeMs (some e) now .failure
          fullOutcome division).result = .error "Event not found") := by
  have hcall : fetchLiveScoresWithCache maxAgeMs evictionAgeMs (some e) now .failure
      fullOutcome division =
      fullFetchStep (if e.lastAccessedAt < now - evictionAgeMs then none
        else some { e with lastAccessedAt := now }) now fullOutcome division := by
    simp only [fetchLiveScoresWithCache]
    rw [if_pos hfresh]
    by_cases hev : e.lastAccessedAt < now - evictionAgeMs
    · simp [hev]
    · simp [hev]
  refine ⟨?_, ?_, ?_⟩
  · intro ev hev
    subst hev
    rw [hcall]
    exact ⟨rfl, rfl⟩
  · intro hf
    subst hf
    rw [hcall]
    exact ⟨rfl, rfl⟩
  · intro hn
    subst hn
    rw [hcall]
    rfl

/-- Witness for the amended C1: the concrete fresh entry with a failing
incremental fetch returns the full-fetch snapshot. -/
theorem incremental_failure_full_fetch_witness :
    (fetchLiveScoresWithCache 1000 1000 (some witnessEntry4) 100 .failure
        (.success (some witnessPayloadEvent)) none).result =
      .ok (transformStages witnessPayloadEvent.stages none) :=
  ((incremental_failure_full_fetch 1000 1000 witnessEntry4 100
    (.success (some witnessPayloadEvent)) none (by decide)).1
    witnessPayloadEvent rfl).1

end Livescore
